import Mathlib

/-!
Verification development for the RADAR-Net backend routing core.

The Python source is shallowly embedded: real-number quantities (floats in
the source) are modelled as exact rationals `ℚ` except for the haversine
heuristic, whose transcendental formula is modelled over `ℝ`; `None`-returning
fallible code is modelled with `Option`; NumPy grids are modelled as a shape
plus a cell function; NetworkX multidigraphs are modelled as explicit node and
edge lists.
-/

namespace RadarNet

/-- Truncation toward zero on rationals, modelling Python's `int(...)`
conversion applied to a float: `int(2.7) = 2`, `int(-0.5) = 0`. -/
def ratTrunc (q : ℚ) : ℤ := if 0 ≤ q then ⌊q⌋ else -⌊-q⌋

/-- The fractional row index `(north - lat) / (north - south) * rows` computed
by `latlon_to_grid_coords` before the `int(...)` conversion. -/
def rowFrac (lat north south : ℚ) (rows : ℕ) : ℚ :=
  (north - lat) / (north - south) * rows

/-- The fractional column index `(lon - west) / (east - west) * cols` computed
by `latlon_to_grid_coords` before the `int(...)` conversion. -/
def colFrac (lon east west : ℚ) (cols : ℕ) : ℚ :=
  (lon - west) / (east - west) * cols

/-- Embedding of `latlon_to_grid_coords` (src/app/utils/osm.py): converts a
latitude/longitude pair to integer grid coordinates via `int(...)` truncation,
returning `none` (Python `None`) when the truncated pair is out of range. -/
def latlon_to_grid_coords (lat lon north south east west : ℚ)
    (rows cols : ℕ) : Option (ℤ × ℤ) :=
  let row := ratTrunc (rowFrac lat north south rows)
  let col := ratTrunc (colFrac lon east west cols)
  if 0 ≤ row ∧ row < (rows : ℤ) ∧ 0 ≤ col ∧ col < (cols : ℤ) then
    some (row, col)
  else
    none

/-- A NumPy 2-D flood grid: a shape `(rows, cols)` together with the cell
contents (`1` means flooded, `0` means dry). -/
structure FloodGrid where
  rows : ℕ
  cols : ℕ
  val : ℕ → ℕ → ℤ

/-- Embedding of `is_node_flooded` (src/app/utils/osm.py): maps the coordinate
through `latlon_to_grid_coords` with the grid's shape; out-of-bounds
coordinates are reported dry; otherwise the grid cell is compared with `1`. -/
def is_node_flooded (node_lat node_lon : ℚ) (flood_grid : FloodGrid)
    (north south east west : ℚ) : Bool :=
  match latlon_to_grid_coords node_lat node_lon north south east west
      flood_grid.rows flood_grid.cols with
  | none => false
  | some (row, col) => decide (flood_grid.val row.toNat col.toNat = 1)

/-- Round half to even at integer precision, modelling the tie-to-even
behaviour of Python's `round`. -/
def roundHalfEven (q : ℚ) : ℤ :=
  if q - ⌊q⌋ < 1/2 then ⌊q⌋
  else if 1/2 < q - ⌊q⌋ then ⌊q⌋ + 1
  else if ⌊q⌋ % 2 = 0 then ⌊q⌋ else ⌊q⌋ + 1

/-- Python `round(x, 2)` over the rational model. -/
def round2 (q : ℚ) : ℚ := (roundHalfEven (q * 100) : ℚ) / 100

/-- OSMnx node attributes: `x` is the longitude and `y` the latitude. -/
structure NodeData where
  x : ℚ
  y : ℚ
deriving DecidableEq

/-- A shapely `LineString` as consumed by `is_edge_flooded`: its arc length
together with its arc-length interpolation function `interpolate`.  The
interpolation is kept as data because shapely's cumulative arc length uses a
Euclidean square root that has no exact rational form. -/
structure EdgeGeometry where
  length : ℚ
  interp : ℚ → ℚ × ℚ

/-- OSMnx edge attributes used by the core: the optional `length` attribute in
meters and the optional `geometry` polyline. -/
structure EdgeAttr where
  length : Option ℚ := none
  geometry : Option EdgeGeometry := none

/-- A NetworkX `MultiDiGraph`: nodes are pairs of an id and node data; edges
are `(u, v, key, data)` tuples, with parallel edges distinguished by `key`. -/
structure MDGraph where
  nodes : List (ℕ × NodeData)
  edges : List (ℕ × ℕ × ℕ × EdgeAttr)

/-- The node ids of a graph (membership models Python `node in G`). -/
def MDGraph.nodeIds (G : MDGraph) : List ℕ := G.nodes.map Prod.fst

/-- Attribute lookup `G.nodes[n]`; the default is never reached when `n` is a
node of `G`, as NetworkX guarantees for the calls in the source. -/
def nodeDatum (G : MDGraph) (n : ℕ) : NodeData :=
  ((G.nodes.find? fun p => decide (p.1 = n)).map Prod.snd).getD ⟨0, 0⟩

/-- The closure invariant of NetworkX graphs: every edge endpoint is a node. -/
def Closed (G : MDGraph) : Prop :=
  ∀ e ∈ G.edges, e.1 ∈ G.nodeIds ∧ e.2.1 ∈ G.nodeIds

/-- The attribute dicts of the parallel edges from `u` to `v`, modelling
`G[u][v].values()` (and `d.values()` inside NetworkX's weight function). -/
def parallelAttrs (G : MDGraph) (u v : ℕ) : List EdgeAttr :=
  (G.edges.filter fun e => decide (e.1 = u ∧ e.2.1 = v)).map fun e => e.2.2.2

/-- Minimum of a list of rationals, `none` on the empty list. -/
def listMinQ : List ℚ → Option ℚ
  | [] => none
  | a :: rest =>
    match listMinQ rest with
    | none => some a
    | some b => some (min a b)

/-- NumPy `np.linspace(0, L, n)`: `n` evenly spaced values from `0` to `L`. -/
def linspace (L : ℚ) (n : ℕ) : List ℚ :=
  (List.range n).map fun i : ℕ => L * (i : ℚ) / ((n : ℚ) - 1)

/-- Embedding of `is_edge_flooded` (src/app/utils/osm.py): sample
`sample_points` arc-length positions evenly from `0` to the geometry's length,
interpolate each and report flooded if any sampled point is flooded.  A
sampled point has `x` = longitude and `y` = latitude, as in the source. -/
def is_edge_flooded (edge_geometry : EdgeGeometry) (flood_grid : FloodGrid)
    (north south east west : ℚ) (sample_points : ℕ) : Bool :=
  (linspace edge_geometry.length sample_points).any fun d =>
    is_node_flooded (edge_geometry.interp d).2 (edge_geometry.interp d).1
      flood_grid north south east west

/-- The straight two-point `LineString` the source synthesizes for edges
without a `geometry` attribute.  It is stored with normalized arc length `1`:
`linspace` sampling composed with linear interpolation yields exactly the same
sampled points as shapely does for the true Euclidean length, for every
positive length, so the normalization is invisible to `is_edge_flooded`. -/
def straightGeom (a b : ℚ × ℚ) : EdgeGeometry :=
  ⟨1, fun d => (a.1 + d * (b.1 - a.1), a.2 + d * (b.2 - a.2))⟩

/-- The geometry used when pruning edge `e` of `G`: the `geometry` attribute
when present, otherwise a straight segment between the endpoint nodes. -/
def edgeGeomOf (G : MDGraph) (e : ℕ × ℕ × ℕ × EdgeAttr) : EdgeGeometry :=
  match e.2.2.2.geometry with
  | some geom => geom
  | none =>
      straightGeom ((nodeDatum G e.1).x, (nodeDatum G e.1).y)
        ((nodeDatum G e.2.1).x, (nodeDatum G e.2.1).y)

/-- The flooded node ids collected by the first loop of
`get_reachable_roads` (node `n` has latitude `y` and longitude `x`). -/
def floodedNodeIds (G : MDGraph) (flood_grid : FloodGrid)
    (north south east west : ℚ) : List ℕ :=
  (G.nodes.filter fun nd =>
    is_node_flooded nd.2.y nd.2.x flood_grid north south east west).map Prod.fst

/-- The effect of `G.remove_nodes_from(flooded_nodes)`: flooded nodes are
dropped and, with them, every incident edge. -/
def removeFloodedNodes (G : MDGraph) (flood_grid : FloodGrid)
    (north south east west : ℚ) : MDGraph :=
  ⟨G.nodes.filter fun nd =>
      !(is_node_flooded nd.2.y nd.2.x flood_grid north south east west),
   G.edges.filter fun e =>
      decide (e.1 ∉ floodedNodeIds G flood_grid north south east west ∧
        e.2.1 ∉ floodedNodeIds G flood_grid north south east west)⟩

/-- The second pruning loop of `get_reachable_roads`: among the edges that
survived node removal, drop every edge flagged by `is_edge_flooded`. -/
def removeFloodedEdges (G : MDGraph) (flood_grid : FloodGrid)
    (north south east west : ℚ) (edge_sample_points : ℕ) : MDGraph :=
  ⟨G.nodes,
   G.edges.filter fun e =>
      !(is_edge_flooded (edgeGeomOf G e) flood_grid north south east west
          edge_sample_points)⟩

/-- The pruning stage of `get_reachable_roads`: flooded-node removal followed
by flooded-edge removal over the surviving edges. -/
def prunedGraph (G : MDGraph) (flood_grid : FloodGrid)
    (north south east west : ℚ) (edge_sample_points : ℕ) : MDGraph :=
  removeFloodedEdges (removeFloodedNodes G flood_grid north south east west)
    flood_grid north south east west edge_sample_points

/-- Undirected adjacency of the pruned graph, modelling `G.to_undirected()`. -/
def adjU (G : MDGraph) (a b : ℕ) : Bool :=
  G.edges.any fun e =>
    decide ((e.1 = a ∧ e.2.1 = b) ∨ (e.1 = b ∧ e.2.1 = a))

/-- One breadth step of component discovery: the input set together with every
node of `G` undirectedly adjacent to it. -/
def nbrStep (G : MDGraph) (s : List ℕ) : List ℕ :=
  s ++ G.nodeIds.filter fun b => s.any fun a => adjU G a b

/-- The undirected connected component of `v`, computed as the stable limit of
`nbrStep` (reached after at most `G.nodes.length` steps).  This models the
component containing `v` among `nx.connected_components(G.to_undirected())`. -/
def reachList (G : MDGraph) (v : ℕ) : List ℕ :=
  (nbrStep G)^[G.nodes.length] [v]

/-- The first node of the list whose image under `f` is maximal, modelling the
tie-breaking of Python's `max(..., key=len)`. -/
def argmaxBy (f : ℕ → ℕ) : List ℕ → Option ℕ
  | [] => none
  | a :: rest =>
    match argmaxBy f rest with
    | none => some a
    | some b => if f b ≤ f a then some a else some b

/-- The node set of the largest undirected connected component,
`max(nx.connected_components(G_undirected), key=len)`. -/
def largestComp (G : MDGraph) : List ℕ :=
  match argmaxBy (fun v => (reachList G v).length) G.nodeIds with
  | none => []
  | some v => reachList G v

/-- NetworkX `G.subgraph(nodes).copy()`: the induced subgraph on `c`. -/
def subgraphOn (G : MDGraph) (c : List ℕ) : MDGraph :=
  ⟨G.nodes.filter fun nd => decide (nd.1 ∈ c),
   G.edges.filter fun e => decide (e.1 ∈ c ∧ e.2.1 ∈ c)⟩

/-- The component-selection tail of `get_reachable_roads`: when `start_node`
is supplied and is a node of the pruned graph, keep its component; otherwise
keep the largest component.  (The source's `main_component is None` fallback
is unreachable, since a node of the graph always lies in some component.) -/
def selectComponent (G : MDGraph) (start_node : Option ℕ) : MDGraph :=
  match start_node with
  | some a => if a ∈ G.nodeIds then subgraphOn G (reachList G a)
              else subgraphOn G (largestComp G)
  | none => subgraphOn G (largestComp G)

/-- Embedding of `get_reachable_roads` (src/app/utils/osm.py) downstream of
the external network download: prune flooded nodes, then flooded edges, then
restrict to the selected undirected component. -/
def get_reachable_roads (G : MDGraph) (flood_grid : FloodGrid)
    (north south east west : ℚ) (start_node : Option ℕ)
    (edge_sample_points : ℕ) : MDGraph :=
  selectComponent
    (prunedGraph G flood_grid north south east west edge_sample_points)
    start_node

/-- NetworkX's weight function for a multigraph with string weight `'length'`:
the minimum of `attr.get('length', 1)` over the parallel edges from `u` to
`v`, or `none` when `v` is not a successor of `u`. -/
def weightOpt (G : MDGraph) (u v : ℕ) : Option ℚ :=
  listMinQ ((parallelAttrs G u v).map fun d => d.length.getD 1)

/-- The successors of `u` with their traversal weights, modelling the
iteration over `G_succ[curnode].items()` inside `nx.astar_path` (the adjacency
dict holds each neighbor once). -/
def succWeights (G : MDGraph) (u : ℕ) : List (ℕ × ℚ) :=
  (((G.edges.filter fun e => decide (e.1 = u)).map fun e => e.2.1).dedup).filterMap
    fun v => (weightOpt G u v).map fun w => (v, w)

/-- A frontier entry of the A* search: the node, the cost `g` of the
discovered path from the source, and that path itself. -/
abbrev AEntry : Type := ℕ × ℚ × List ℕ

/-- The priority of a frontier entry: `g + h(node)`. -/
def entryKey (h : ℕ → ℚ) (e : AEntry) : ℚ := e.2.1 + h e.1

/-- Remove a minimum-priority element from a list, returning it and the rest;
the earliest minimal element is taken. -/
def popMinBy {α : Type} (key : α → ℚ) : List α → Option (α × List α)
  | [] => none
  | a :: rest =>
    match popMinBy key rest with
    | none => some (a, [])
    | some (b, rest') => if key a ≤ key b then some (a, rest) else some (b, a :: rest')

/-- The priority-queue loop of `nx.astar_path` (the external search the source
delegates to), as the standard lazy-deletion A*: pop the minimum-priority
entry; return its path when it reaches the target; skip it when its node was
already explored; otherwise record the node as explored with its cost and push
all successors.  Fuel-based recursion returns `none` both when the frontier
empties (`NetworkXNoPath`) and on fuel exhaustion; no claim requires a
completeness guarantee. -/
def astarLoop (G : MDGraph) (h : ℕ → ℚ) (t : ℕ) :
    ℕ → List AEntry → List (ℕ × ℚ) → Option (List ℕ × ℚ)
  | 0, _, _ => none
  | fuel + 1, frontier, explored =>
    match popMinBy (entryKey h) frontier with
    | none => none
    | some (e, rest) =>
      if e.1 = t then some (e.2.2, e.2.1)
      else if e.1 ∈ explored.map Prod.fst then
        astarLoop G h t fuel rest explored
      else
        astarLoop G h t fuel
          (rest ++ (succWeights G e.1).map fun vw => (vw.1, e.2.1 + vw.2, e.2.2 ++ [vw.1]))
          ((e.1, e.2.1) :: explored)

/-- Fuel that is private to the model; generous for every run the claims
evaluate. -/
def astarFuel (G : MDGraph) : ℕ :=
  (G.nodes.length + 1) * (G.edges.length + 1) + 2

/-- The `nx.astar_path` call of `get_a_star_geojson`, returning the found path
together with its accumulated cost, starting from the single frontier entry
`(source, 0, [source])`.  The haversine heuristic of the source is
real-valued, so the search is modelled generically over a rational heuristic
`h`. -/
def astar (G : MDGraph) (h : ℕ → ℚ) (s t : ℕ) : Option (List ℕ × ℚ) :=
  astarLoop G h t (astarFuel G) [(s, 0, [s])] []

/-- Cost of traversing a node list, where each consecutive pair costs
`weightOpt`-style `W`; `none` when some pair has no edge. -/
def pathCost (W : ℕ → ℕ → Option ℚ) : List ℕ → Option ℚ
  | [] => none
  | [_] => some 0
  | u :: v :: rest =>
    match W u v, pathCost W (v :: rest) with
    | some w, some c => some (w + c)
    | _, _ => none

/-- A path from `s` to `t` with total cost `c` under the weight function `W`. -/
def IsPath (W : ℕ → ℕ → Option ℚ) (s t : ℕ) (q : List ℕ) (c : ℚ) : Prop :=
  q.head? = some s ∧ q.getLast? = some t ∧ pathCost W q = some c

/-- Consistency of a heuristic with respect to a weight function: across every
edge, `h` decreases by at most the edge weight.  The haversine heuristic has
this property exactly when every edge's length dominates the straight-line
distance between its endpoints. -/
def Consistent (W : ℕ → ℕ → Option ℚ) (h : ℕ → ℚ) : Prop :=
  ∀ u v w, W u v = some w → h u ≤ w + h v

/-- Loop invariant of the A* search from `s` toward `t`: the target is never
settled; every frontier entry records a real path and its cost; every settled
node records the cost of a real path that no path can beat; every edge out of
a settled node has been relaxed into the settled set or the frontier; and the
source is covered by a settled or frontier record of cost at most `0`. -/
structure AInv (G : MDGraph) (s t : ℕ) (F : List AEntry)
    (E : List (ℕ × ℚ)) : Prop where
  tnotE : ∀ gx : ℚ, (t, gx) ∉ E
  freal : ∀ e ∈ F, IsPath (weightOpt G) s e.1 e.2.2 e.2.1
  ereal : ∀ x ∈ E, ∃ p, IsPath (weightOpt G) s x.1 p x.2
  elow : ∀ x ∈ E, ∀ q c, IsPath (weightOpt G) s x.1 q c → x.2 ≤ c
  erelax : ∀ x ∈ E, ∀ v w, weightOpt G x.1 v = some w →
    (∃ gv, (v, gv) ∈ E ∧ gv ≤ x.2 + w) ∨
    (∃ e ∈ F, e.1 = v ∧ e.2.1 ≤ x.2 + w)
  scover : (∃ gs, (s, gs) ∈ E ∧ gs ≤ 0) ∨
    (∃ e ∈ F, e.1 = s ∧ e.2.1 ≤ 0)

/-- The serializer's per-hop value:
`min(G[u][v].values(), key=lambda x: x.get('length', 0)).get('length', 0)`,
which is the minimum of the length-or-0 defaults; `none` models the `KeyError`
raised when `(u, v)` is not an edge. -/
def hopDist (G : MDGraph) (u v : ℕ) : Option ℚ :=
  listMinQ ((parallelAttrs G u v).map fun d => d.length.getD 0)

/-- The serializer's `total_dist` accumulation over consecutive pairs of the
returned path. -/
def totalDist (G : MDGraph) : List ℕ → Option ℚ
  | u :: v :: rest =>
    match hopDist G u v, totalDist G (v :: rest) with
    | some w, some c => some (w + c)
    | _, _ => none
  | _ => some 0

/-- Coordinate pair `[G.nodes[n]['x'], G.nodes[n]['y']]` of a path node;
`none` models the `KeyError` on a missing node. -/
def nodeCoordOpt (G : MDGraph) (n : ℕ) : Option (ℚ × ℚ) :=
  (G.nodes.find? fun p => decide (p.1 = n)).map fun p => (p.2.x, p.2.y)

/-- The GeoJSON `LineString` coordinates built from the path nodes, in
traversal order; `none` as soon as one node lookup fails. -/
def lineCoords (G : MDGraph) : List ℕ → Option (List (ℚ × ℚ))
  | [] => some []
  | n :: rest =>
    match nodeCoordOpt G n, lineCoords G rest with
    | some xy, some cs => some (xy :: cs)
    | _, _ => none

/-- The route feature produced by `get_a_star_geojson`: the `properties`
fields and the `LineString` coordinates. -/
structure RouteOut where
  distance_meters : ℚ
  distance_km : ℚ
  num_nodes : ℕ
  status : String
  coordinates : List (ℚ × ℚ)
deriving DecidableEq

/-- Embedding of `get_a_star_geojson` (src/app/utils/a_star.py).  `none`
covers every `None` return of the source: `NetworkXNoPath`, and any other
exception caught by the blanket `except Exception` (a missing start or end
node, a missing edge attribute dict, a missing path node).  The heuristic is
passed as the parameter `h` (the source's real-valued haversine heuristic). -/
def get_a_star_geojson (G : MDGraph) (h : ℕ → ℚ) (start_node end_node : ℕ) :
    Option RouteOut :=
  if start_node ∈ G.nodeIds ∧ end_node ∈ G.nodeIds then
    match astar G h start_node end_node with
    | none => none
    | some (path, _) =>
      match totalDist G path, lineCoords G path with
      | some d, some cs =>
          some ⟨round2 d, round2 (d / 1000), path.length, "dry", cs⟩
      | _, _ => none
  else none

/-- Embedding of `haversine_distance` (src/app/utils/a_star.py) over the
reals; `math.radians` converts degrees to radians. -/
noncomputable def radiansQ (d : ℚ) : ℝ := (d : ℝ) * Real.pi / 180

/-- Haversine straight-line heuristic of the source: great-circle distance in
meters between the coordinates of nodes `u` and `v` of `G`. -/
noncomputable def haversine_distance (u v : ℕ) (G : MDGraph) : ℝ :=
  let lat1 := radiansQ (nodeDatum G u).y
  let lon1 := radiansQ (nodeDatum G u).x
  let lat2 := radiansQ (nodeDatum G v).y
  let lon2 := radiansQ (nodeDatum G v).x
  let dlon := lon2 - lon1
  let dlat := lat2 - lat1
  let a := Real.sin (dlat / 2) ^ 2 +
    Real.cos lat1 * Real.cos lat2 * Real.sin (dlon / 2) ^ 2
  2 * Real.arcsin (Real.sqrt a) * 6371000

/-! Concrete inputs used by counterexamples and witnesses. -/

/-- The trivial heuristic, a concrete instance of the search's heuristic
parameter (a consistent heuristic for any graph with nonnegative lengths). -/
def hZero : ℕ → ℚ := fun _ => 0

/-- An all-clear 2×2 grid. -/
def gridZero : FloodGrid := ⟨2, 2, fun _ _ => 0⟩

/-- A 2×2 grid whose top-left cell (row 0, col 0) is flooded. -/
def gridTL : FloodGrid := ⟨2, 2, fun r c => if r = 0 ∧ c = 0 then 1 else 0⟩

/-- Two nodes on the equator 180 degrees apart joined by an edge whose
`length` attribute is 1 meter: the haversine heuristic hugely exceeds the
network distance here. -/
def Gfar : MDGraph :=
  ⟨[(0, ⟨0, 0⟩), (1, ⟨180, 0⟩)], [(0, 1, 0, ⟨some 1, none⟩)]⟩

/-- Two nodes joined by parallel edges of lengths 5 and 7. -/
def Gpar : MDGraph :=
  ⟨[(0, ⟨0, 0⟩), (1, ⟨0, 0⟩)],
   [(0, 1, 0, ⟨some 5, none⟩), (0, 1, 1, ⟨some 7, none⟩)]⟩

/-- Two nodes joined by an edge of length 1/3 meter (a value not
representable with 2 decimals). -/
def Gthird : MDGraph :=
  ⟨[(0, ⟨0, 0⟩), (1, ⟨0, 0⟩)], [(0, 1, 0, ⟨some (1/3), none⟩)]⟩

/-- Two isolated nodes: no path exists between them. -/
def Gnopath : MDGraph := ⟨[(0, ⟨0, 0⟩), (1, ⟨0, 0⟩)], []⟩

/-- A graph containing only node 1: querying from node 0 raises
`NodeNotFound` inside `nx.astar_path`. -/
def Gonly1 : MDGraph := ⟨[(1, ⟨0, 0⟩)], []⟩

/-- A three-node network inside the unit bounding box: nodes 0 and 1 sit in
dry cells of `gridTL` and are joined by an edge; node 2 sits in the flooded
cell and hangs off node 0. -/
def Gpipe : MDGraph :=
  ⟨[(0, ⟨3/4, 3/4⟩), (1, ⟨3/4, 1/4⟩), (2, ⟨1/4, 3/4⟩)],
   [(0, 1, 0, ⟨some 1, none⟩), (0, 2, 0, ⟨some 1, none⟩)]⟩

/-- A unit-length segment along the equator used as a sample geometry. -/
def geomSeg : EdgeGeometry := ⟨1, fun d => (d, 3/4)⟩

/-- The route produced on `Gpar`. -/
def outPar : RouteOut := ⟨5, 0, 2, "dry", [(0, 0), (0, 0)]⟩

/-- The route produced on `Gthird`: 1/3 meter rounds to 0.33. -/
def outThird : RouteOut := ⟨33/100, 0, 2, "dry", [(0, 0), (0, 0)]⟩

/-- The route produced on the island selected from `Gpipe`. -/
def outPipe : RouteOut := ⟨1, 0, 2, "dry", [(3/4, 3/4), (3/4, 1/4)]⟩

/-- The pruning of `Gpipe` under `gridTL`: node 2 and its edge are removed. -/
def Gsel : MDGraph :=
  ⟨[(0, ⟨3/4, 3/4⟩), (1, ⟨3/4, 1/4⟩)], [(0, 1, 0, ⟨some 1, none⟩)]⟩

/-! Theorems. -/

/-- Truncation agrees with floor on nonnegative rationals. -/
theorem ratTrunc_of_nonneg {q : ℚ} (h : 0 ≤ q) : ratTrunc q = ⌊q⌋ := if_pos h

/-- Truncation toward zero sends the open interval `(-1, 0)` to `0`. -/
theorem ratTrunc_eq_zero_of_neg {q : ℚ} (h0 : q < 0) (h1 : -1 < q) :
    ratTrunc q = 0 := by
  rw [ratTrunc, if_neg (not_le.mpr h0)]
  have hz : ⌊-q⌋ = 0 := Int.floor_eq_zero_iff.mpr ⟨by linarith, by linarith⟩
  simp [hz]

/-- Truncation of `0` is `0`. -/
theorem ratTrunc_zero : ratTrunc 0 = 0 := by simp [ratTrunc]

/-- C7: `is_node_flooded` returns `false` whenever the coordinate maps out of
bounds (fail-open), and otherwise returns `true` exactly when the mapped grid
cell holds `1`. -/
theorem C7_node_hazard (node_lat node_lon : ℚ) (flood_grid : FloodGrid)
    (north south east west : ℚ) :
    (latlon_to_grid_coords node_lat node_lon north south east west
        flood_grid.rows flood_grid.cols = none →
      is_node_flooded node_lat node_lon flood_grid north south east west = false)
    ∧ ∀ r c : ℤ,
        latlon_to_grid_coords node_lat node_lon north south east west
          flood_grid.rows flood_grid.cols = some (r, c) →
        (is_node_flooded node_lat node_lon flood_grid north south east west = true ↔
          flood_grid.val r.toNat c.toNat = 1) := by
  constructor
  · intro hnone
    unfold is_node_flooded
    rw [hnone]
  · intro r c hsome
    unfold is_node_flooded
    rw [hsome]
    exact decide_eq_true_iff

/-- C7 witness: an out-of-bounds coordinate is reported dry; the coordinate in
the flooded top-left cell of `gridTL` is reported flooded. -/
theorem C7_node_hazard_witness :
    is_node_flooded 5 5 gridTL 1 0 1 0 = false ∧
    is_node_flooded (3/4) (1/4) gridTL 1 0 1 0 = true := by
  constructor
  · exact (C7_node_hazard 5 5 gridTL 1 0 1 0).1
      (by norm_num [latlon_to_grid_coords, ratTrunc, rowFrac, colFrac, gridTL])
  · exact ((C7_node_hazard (3/4) (1/4) gridTL 1 0 1 0).2 0 0
      (by norm_num [latlon_to_grid_coords, ratTrunc, rowFrac, colFrac, gridTL])).mpr
      (by norm_num [gridTL])

/-- C3 counterexample: at latitude 1.05, half a cell above the north edge of
the unit box with a 10×10 grid, the floor pair is `(-1, 5)` — outside
`[0, 10) × [0, 10)`, so the claim requires `OutOfBounds` — yet the code's
`int(...)` truncation returns the in-bounds cell `(0, 5)`. -/
theorem C3_counterexample :
    latlon_to_grid_coords (21/20) (1/2) 1 0 1 0 10 10 = some (0, 5) ∧
    ⌊rowFrac (21/20) 1 0 10⌋ = -1 := by
  constructor
  · norm_num [latlon_to_grid_coords, ratTrunc, rowFrac, colFrac]
  · norm_num [rowFrac]

/-- C3 (amended): `latlon_to_grid_coords` returns the truncated-toward-zero
pair exactly when that pair lies in `[0, rows) × [0, cols)` and `OutOfBounds`
otherwise; when the floor pair lies in range the result equals the floor pair
(truncation and floor agree on nonnegative fractions); a coordinate exactly on
the north edge maps to row 0 and one exactly on the west edge maps to col 0,
whenever the other component is in range. -/
theorem C3_grid_mapping (lat lon north south east west : ℚ) (rows cols : ℕ) :
    (∀ r c : ℤ,
      latlon_to_grid_coords lat lon north south east west rows cols = some (r, c) ↔
        (r = ratTrunc (rowFrac lat north south rows) ∧
         c = ratTrunc (colFrac lon east west cols) ∧
         0 ≤ r ∧ r < (rows : ℤ) ∧ 0 ≤ c ∧ c < (cols : ℤ)))
    ∧ ((0 ≤ ⌊rowFrac lat north south rows⌋ ∧
        ⌊rowFrac lat north south rows⌋ < (rows : ℤ) ∧
        0 ≤ ⌊colFrac lon east west cols⌋ ∧
        ⌊colFrac lon east west cols⌋ < (cols : ℤ)) →
      latlon_to_grid_coords lat lon north south east west rows cols =
        some (⌊rowFrac lat north south rows⌋, ⌊colFrac lon east west cols⌋))
    ∧ (lat = north → 0 < rows →
        0 ≤ ratTrunc (colFrac lon east west cols) →
        ratTrunc (colFrac lon east west cols) < (cols : ℤ) →
        latlon_to_grid_coords lat lon north south east west rows cols =
          some (0, ratTrunc (colFrac lon east west cols)))
    ∧ (lon = west → 0 < cols →
        0 ≤ ratTrunc (rowFrac lat north south rows) →
        ratTrunc (rowFrac lat north south rows) < (rows : ℤ) →
        latlon_to_grid_coords lat lon north south east west rows cols =
          some (ratTrunc (rowFrac lat north south rows), 0)) := by
  have hchar : ∀ r c : ℤ,
      latlon_to_grid_coords lat lon north south east west rows cols = some (r, c) ↔
        (r = ratTrunc (rowFrac lat north south rows) ∧
         c = ratTrunc (colFrac lon east west cols) ∧
         0 ≤ r ∧ r < (rows : ℤ) ∧ 0 ≤ c ∧ c < (cols : ℤ)) := by
    intro r c
    unfold latlon_to_grid_coords
    by_cases hin : 0 ≤ ratTrunc (rowFrac lat north south rows) ∧
        ratTrunc (rowFrac lat north south rows) < (rows : ℤ) ∧
        0 ≤ ratTrunc (colFrac lon east west cols) ∧
        ratTrunc (colFrac lon east west cols) < (cols : ℤ)
    · rw [if_pos hin]
      simp only [Option.some.injEq, Prod.mk.injEq]
      constructor
      · rintro ⟨rfl, rfl⟩
        exact ⟨rfl, rfl, hin.1, hin.2.1, hin.2.2.1, hin.2.2.2⟩
      · rintro ⟨rfl, rfl, _⟩
        exact ⟨rfl, rfl⟩
    · rw [if_neg hin]
      constructor
      · intro h
        exact absurd h (by simp)
      · rintro ⟨rfl, rfl, h1, h2, h3, h4⟩
        exact absurd ⟨h1, h2, h3, h4⟩ hin
  refine ⟨hchar, ?_, ?_, ?_⟩
  · rintro ⟨h1, h2, h3, h4⟩
    have hr0 : (0 : ℚ) ≤ rowFrac lat north south rows := by
      exact_mod_cast Int.le_floor.mp h1
    have hc0 : (0 : ℚ) ≤ colFrac lon east west cols := by
      exact_mod_cast Int.le_floor.mp h3
    exact (hchar _ _).mpr ⟨(ratTrunc_of_nonneg hr0).symm, (ratTrunc_of_nonneg hc0).symm,
      by rw [ratTrunc_of_nonneg hr0] at *; exact h1,
      by rw [ratTrunc_of_nonneg hr0] at *; exact h2,
      by rw [ratTrunc_of_nonneg hc0] at *; exact h3,
      by rw [ratTrunc_of_nonneg hc0] at *; exact h4⟩
  · intro hlat hrows hcl hcu
    have hz : rowFrac lat north south rows = 0 := by
      simp [rowFrac, hlat]
    exact (hchar _ _).mpr ⟨by rw [hz, ratTrunc_zero], rfl, le_refl 0,
      by exact_mod_cast hrows, hcl, hcu⟩
  · intro hlon hcols hrl hru
    have hz : colFrac lon east west cols = 0 := by
      simp [colFrac, hlon]
    exact (hchar _ _).mpr ⟨rfl, by rw [hz, ratTrunc_zero], hrl, hru, le_refl 0,
      by exact_mod_cast hcols⟩

/-- C3 witness: the north-edge coordinate maps to row 0 and the west-edge
coordinate maps to col 0 on the unit box with a 10×10 grid. -/
theorem C3_grid_mapping_witness :
    latlon_to_grid_coords 1 (1/2) 1 0 1 0 10 10 = some (0, 5) ∧
    latlon_to_grid_coords (1/2) 0 1 0 1 0 10 10 = some (5, 0) := by
  constructor
  · have h := (C3_grid_mapping 1 (1/2) 1 0 1 0 10 10).2.2.1 rfl (by norm_num)
      (by norm_num [ratTrunc, colFrac]) (by norm_num [ratTrunc, colFrac])
    rwa [show ratTrunc (colFrac (1/2) 1 0 10) = 5 by
      norm_num [ratTrunc, colFrac]] at h
  · have h := (C3_grid_mapping (1/2) 0 1 0 1 0 10 10).2.2.2 rfl (by norm_num)
      (by norm_num [ratTrunc, rowFrac]) (by norm_num [ratTrunc, rowFrac])
    rwa [show ratTrunc (rowFrac (1/2) 1 0 10) = 5 by
      norm_num [ratTrunc, rowFrac]] at h

/-- C10: a coordinate strictly less than one cell height above the north edge
(with in-range longitude) is truncated to the in-bounds row 0 rather than
`OutOfBounds`, so a hazarded cell there reports the point flooded; and a
coordinate strictly less than one cell width west of the west edge (with
in-range latitude) is truncated to the in-bounds column 0. -/
theorem C10_near_edge_inbounds (lat lon north south east west : ℚ)
    (g : FloodGrid) (hns : south < north) (hew : west < east)
    (hrows : 0 < g.rows) (hcols : 0 < g.cols) :
    (north < lat → lat < north + (north - south) / g.rows →
      west ≤ lon → lon < east →
      latlon_to_grid_coords lat lon north south east west g.rows g.cols =
        some (0, ⌊colFrac lon east west g.cols⌋) ∧
      (g.val 0 ⌊colFrac lon east west g.cols⌋.toNat = 1 →
        is_node_flooded lat lon g north south east west = true))
    ∧ (west - (east - west) / g.cols < lon → lon < west →
      south < lat → lat ≤ north →
      latlon_to_grid_coords lat lon north south east west g.rows g.cols =
        some (⌊rowFrac lat north south g.rows⌋, 0) ∧
      (g.val ⌊rowFrac lat north south g.rows⌋.toNat 0 = 1 →
        is_node_flooded lat lon g north south east west = true)) := by
  have hd : (0 : ℚ) < north - south := by linarith
  have he : (0 : ℚ) < east - west := by linarith
  have hrq : (0 : ℚ) < (g.rows : ℚ) := by exact_mod_cast hrows
  have hcq : (0 : ℚ) < (g.cols : ℚ) := by exact_mod_cast hcols
  constructor
  · intro h1 h2 h3 h4
    have hrneg : rowFrac lat north south g.rows < 0 :=
      mul_neg_of_neg_of_pos (div_neg_of_neg_of_pos (by linarith) hd) hrq
    have hrgt : -1 < rowFrac lat north south g.rows := by
      have ha : -((north - south) / (g.rows : ℚ)) < north - lat := by linarith
      have hb : -(north - south) < (north - lat) * g.rows := by
        have := mul_lt_mul_of_pos_right ha hrq
        rwa [neg_mul, div_mul_cancel₀ _ (ne_of_gt hrq)] at this
      rw [rowFrac, div_mul_eq_mul_div, lt_div_iff₀ hd]
      linarith
    have hrow0 : ratTrunc (rowFrac lat north south g.rows) = 0 :=
      ratTrunc_eq_zero_of_neg hrneg hrgt
    have hc0 : (0 : ℚ) ≤ colFrac lon east west g.cols :=
      mul_nonneg (div_nonneg (by linarith) (le_of_lt he)) (le_of_lt hcq)
    have hc1 : colFrac lon east west g.cols < g.cols := by
      have hf : (lon - west) / (east - west) < 1 := (div_lt_one he).mpr (by linarith)
      calc colFrac lon east west g.cols
          < 1 * g.cols := mul_lt_mul_of_pos_right hf hcq
        _ = g.cols := one_mul _
    have hcol : ratTrunc (colFrac lon east west g.cols) =
        ⌊colFrac lon east west g.cols⌋ := ratTrunc_of_nonneg hc0
    have hfl : 0 ≤ ⌊colFrac lon east west g.cols⌋ := Int.le_floor.mpr (by exact_mod_cast hc0)
    have hfu : ⌊colFrac lon east west g.cols⌋ < (g.cols : ℤ) :=
      Int.floor_lt.mpr (by exact_mod_cast hc1)
    have hmain : latlon_to_grid_coords lat lon north south east west g.rows g.cols =
        some (0, ⌊colFrac lon east west g.cols⌋) := by
      unfold latlon_to_grid_coords
      rw [hrow0, hcol, if_pos ⟨le_refl 0, by exact_mod_cast hrows, hfl, hfu⟩]
    refine ⟨hmain, fun hval => ?_⟩
    unfold is_node_flooded
    rw [hmain]
    exact decide_eq_true hval
  · intro h1 h2 h3 h4
    have hcneg : colFrac lon east west g.cols < 0 :=
      mul_neg_of_neg_of_pos (div_neg_of_neg_of_pos (by linarith) he) hcq
    have hcgt : -1 < colFrac lon east west g.cols := by
      have ha : -((east - west) / (g.cols : ℚ)) < lon - west := by linarith
      have hb : -(east - west) < (lon - west) * g.cols := by
        have := mul_lt_mul_of_pos_right ha hcq
        rwa [neg_mul, div_mul_cancel₀ _ (ne_of_gt hcq)] at this
      rw [colFrac, div_mul_eq_mul_div, lt_div_iff₀ he]
      linarith
    have hcol0 : ratTrunc (colFrac lon east west g.cols) = 0 :=
      ratTrunc_eq_zero_of_neg hcneg hcgt
    have hr0 : (0 : ℚ) ≤ rowFrac lat north south g.rows :=
      mul_nonneg (div_nonneg (by linarith) (le_of_lt hd)) (le_of_lt hrq)
    have hr1 : rowFrac lat north south g.rows < g.rows := by
      have hf : (north - lat) / (north - south) < 1 := (div_lt_one hd).mpr (by linarith)
      calc rowFrac lat north south g.rows
          < 1 * g.rows := mul_lt_mul_of_pos_right hf hrq
        _ = g.rows := one_mul _
    have hrow : ratTrunc (rowFrac lat north south g.rows) =
        ⌊rowFrac lat north south g.rows⌋ := ratTrunc_of_nonneg hr0
    have hfl : 0 ≤ ⌊rowFrac lat north south g.rows⌋ := Int.le_floor.mpr (by exact_mod_cast hr0)
    have hfu : ⌊rowFrac lat north south g.rows⌋ < (g.rows : ℤ) :=
      Int.floor_lt.mpr (by exact_mod_cast hr1)
    have hmain : latlon_to_grid_coords lat lon north south east west g.rows g.cols =
        some (⌊rowFrac lat north south g.rows⌋, 0) := by
      unfold latlon_to_grid_coords
      rw [hrow, hcol0, if_pos ⟨hfl, hfu, le_refl 0, by exact_mod_cast hcols⟩]
    refine ⟨hmain, fun hval => ?_⟩
    unfold is_node_flooded
    rw [hmain]
    exact decide_eq_true hval

/-- C10 witness: latitude 9/8 lies above the unit box's north edge by less
than one cell height of `gridTL`, maps to the flooded cell `(0, 0)`, and is
reported flooded. -/
theorem C10_near_edge_inbounds_witness :
    latlon_to_grid_coords (9/8) (1/4) 1 0 1 0 2 2 = some (0, 0) ∧
    is_node_flooded (9/8) (1/4) gridTL 1 0 1 0 = true := by
  have h := (C10_near_edge_inbounds (9/8) (1/4) 1 0 1 0 gridTL
    (by norm_num) (by norm_num) (by norm_num [gridTL]) (by norm_num [gridTL])).1
    (by norm_num) (by norm_num [gridTL]) (by norm_num) (by norm_num)
  rw [show ⌊colFrac (1/4) 1 0 gridTL.cols⌋ = 0 by norm_num [colFrac, gridTL]] at h
  exact ⟨by simpa [gridTL] using h.1, h.2 (by norm_num [gridTL])⟩

/-- Element `i` of `linspace L n`. -/
theorem linspace_getD (L : ℚ) {n i : ℕ} (hi : i < n) :
    (linspace L n).getD i 0 = L * (i : ℚ) / ((n : ℚ) - 1) := by
  rw [linspace, List.getD_eq_getElem?_getD, List.getElem?_map, List.getElem?_range hi]
  rfl

/-- `linspace` produces exactly `n` samples. -/
theorem linspace_length (L : ℚ) (n : ℕ) : (linspace L n).length = n := by
  simp [linspace]

/-- The first sample of `linspace` is `0`. -/
theorem linspace_head (L : ℚ) {n : ℕ} (hn : 1 ≤ n) : (linspace L n).head? = some 0 := by
  obtain ⟨m, rfl⟩ : ∃ m, n = m + 1 := ⟨n - 1, by omega⟩
  rw [linspace, List.range_succ_eq_map]
  simp

/-- The last sample of `linspace` is `L` when at least two samples are taken. -/
theorem linspace_last (L : ℚ) {n : ℕ} (hn : 2 ≤ n) :
    (linspace L n).getLast? = some L := by
  have hlen : (linspace L n).length = n := linspace_length L n
  rw [List.getLast?_eq_getElem? (linspace L n), hlen]
  have hi : n - 1 < n := by omega
  rw [linspace, List.getElem?_map, List.getElem?_range hi]
  have hcast : ((n - 1 : ℕ) : ℚ) = (n : ℚ) - 1 := by
    have h1 : (1:ℕ) ≤ n := by omega
    push_cast [h1]
    ring
  have hne : ((n : ℚ) - 1) ≠ 0 := by
    have h2 : (2:ℚ) ≤ (n:ℚ) := by exact_mod_cast hn
    linarith
  simp [hcast, mul_div_assoc, div_self hne]

/-- C6: for `sampleCount ≥ 2`, `is_edge_flooded` tests exactly `sampleCount`
arc-length positions evenly spaced from `0` to the geometry's length
(inclusive of both endpoints), and returns `true` iff at least one sampled
point is flooded; in particular it returns `true` when every sampled point is
flooded. -/
theorem C6_edge_sampling (edge_geometry : EdgeGeometry) (flood_grid : FloodGrid)
    (north south east west : ℚ) (sample_points : ℕ) (hsp : 2 ≤ sample_points) :
    (linspace edge_geometry.length sample_points).length = sample_points
    ∧ (linspace edge_geometry.length sample_points).head? = some 0
    ∧ (linspace edge_geometry.length sample_points).getLast? =
        some edge_geometry.length
    ∧ (∀ i, i + 1 < sample_points →
        (linspace edge_geometry.length sample_points).getD (i + 1) 0 -
          (linspace edge_geometry.length sample_points).getD i 0 =
          edge_geometry.length / ((sample_points : ℚ) - 1))
    ∧ (is_edge_flooded edge_geometry flood_grid north south east west
          sample_points = true ↔
        ∃ d ∈ linspace edge_geometry.length sample_points,
          is_node_flooded (edge_geometry.interp d).2 (edge_geometry.interp d).1
            flood_grid north south east west = true)
    ∧ ((∀ d ∈ linspace edge_geometry.length sample_points,
          is_node_flooded (edge_geometry.interp d).2 (edge_geometry.interp d).1
            flood_grid north south east west = true) →
        is_edge_flooded edge_geometry flood_grid north south east west
          sample_points = true) := by
  have hiff : is_edge_flooded edge_geometry flood_grid north south east west
      sample_points = true ↔
      ∃ d ∈ linspace edge_geometry.length sample_points,
        is_node_flooded (edge_geometry.interp d).2 (edge_geometry.interp d).1
          flood_grid north south east west = true := by
    simp [is_edge_flooded, List.any_eq_true]
  refine ⟨linspace_length _ _, linspace_head _ (by omega), linspace_last _ hsp,
    ?_, hiff, ?_⟩
  · intro i hi
    rw [linspace_getD _ hi, linspace_getD _ (by omega : i < sample_points),
      div_sub_div_same]
    congr 1
    push_cast
    ring
  · intro hall
    have hpos : 0 < (linspace edge_geometry.length sample_points).length := by
      rw [linspace_length]
      omega
    obtain ⟨d, hd⟩ := List.exists_mem_of_length_pos hpos
    exact hiff.mpr ⟨d, hd, hall d hd⟩

/-- C6 witness: with two samples on the unit equator segment `geomSeg`, the
samples are the endpoints `0` and `1`. -/
theorem C6_edge_sampling_witness :
    (2 : ℕ) ≤ 2 ∧
    (linspace geomSeg.length 2).head? = some 0 ∧
    (linspace geomSeg.length 2).getLast? = some geomSeg.length := by
  refine ⟨le_refl 2, ?_, ?_⟩
  · exact (C6_edge_sampling geomSeg gridTL 1 0 1 0 2 (le_refl 2)).2.1
  · exact (C6_edge_sampling geomSeg gridTL 1 0 1 0 2 (le_refl 2)).2.2.1

/-- Membership in `MDGraph.nodeIds` through node entries. -/
theorem mem_nodeIds {G : MDGraph} {a : ℕ} :
    a ∈ G.nodeIds ↔ ∃ nd ∈ G.nodes, nd.1 = a := by
  simp [MDGraph.nodeIds, List.mem_map]

/-- C4: for a closed input network, the pruning stage (flooded-node removal
followed by flooded-edge removal) yields a closed network, and the edges
subjected to per-edge sampling are exactly edges of the node-pruned graph:
original edges both of whose endpoints survived node removal. -/
theorem C4_prune_closure (G : MDGraph) (flood_grid : FloodGrid)
    (north south east west : ℚ) (edge_sample_points : ℕ) (hc : Closed G) :
    Closed (prunedGraph G flood_grid north south east west edge_sample_points)
    ∧ ∀ e ∈ (removeFloodedNodes G flood_grid north south east west).edges,
        e ∈ G.edges ∧
        e.1 ∉ floodedNodeIds G flood_grid north south east west ∧
        e.2.1 ∉ floodedNodeIds G flood_grid north south east west := by
  have hstep : ∀ e ∈ (removeFloodedNodes G flood_grid north south east west).edges,
      e ∈ G.edges ∧
      e.1 ∉ floodedNodeIds G flood_grid north south east west ∧
      e.2.1 ∉ floodedNodeIds G flood_grid north south east west := by
    intro e he
    simp only [removeFloodedNodes, List.mem_filter, decide_eq_true_eq] at he
    exact ⟨he.1, he.2.1, he.2.2⟩
  refine ⟨?_, hstep⟩
  intro e he
  have he2 : e ∈ (removeFloodedNodes G flood_grid north south east west).edges := by
    simp only [prunedGraph, removeFloodedEdges, List.mem_filter] at he
    exact he.1
  obtain ⟨heG, hu, hv⟩ := hstep e he2
  have hnodes : ∀ a, a ∈ G.nodeIds →
      a ∉ floodedNodeIds G flood_grid north south east west →
      a ∈ (prunedGraph G flood_grid north south east west
        edge_sample_points).nodeIds := by
    intro a ha hnf
    obtain ⟨nd, hnd, rfl⟩ := mem_nodeIds.mp ha
    have hkeep : is_node_flooded nd.2.y nd.2.x flood_grid north south east west
        = false := by
      cases hfl : is_node_flooded nd.2.y nd.2.x flood_grid north south east west
      · rfl
      · exact absurd (show nd.1 ∈ floodedNodeIds G flood_grid north south east west by
          simp only [floodedNodeIds, List.mem_map]
          exact ⟨nd, List.mem_filter.mpr ⟨hnd, hfl⟩, rfl⟩) hnf
    apply mem_nodeIds.mpr
    refine ⟨nd, ?_, rfl⟩
    simp only [prunedGraph, removeFloodedEdges, removeFloodedNodes, List.mem_filter]
    exact ⟨hnd, by rw [hkeep]; rfl⟩
  exact ⟨hnodes e.1 (hc e heG).1 hu, hnodes e.2.1 (hc e heG).2 hv⟩

/-- C4 witness: the concrete network `Gpipe` is closed, and so is its pruning
under `gridTL`. -/
theorem C4_prune_closure_witness :
    Closed Gpipe ∧ Closed (prunedGraph Gpipe gridTL 1 0 1 0 3) := by
  have hc : Closed Gpipe := by
    simp [Closed, Gpipe, MDGraph.nodeIds]
  exact ⟨hc, (C4_prune_closure Gpipe gridTL 1 0 1 0 3 hc).1⟩

/-- `adjU` characterized by edge membership. -/
theorem adjU_eq_true {G : MDGraph} {a b : ℕ} :
    adjU G a b = true ↔
      ∃ e ∈ G.edges, (e.1 = a ∧ e.2.1 = b) ∨ (e.1 = b ∧ e.2.1 = a) := by
  simp [adjU, List.any_eq_true]

/-- Undirected adjacency is symmetric. -/
theorem adjU_symm {G : MDGraph} {a b : ℕ} (h : adjU G a b = true) :
    adjU G b a = true := by
  rw [adjU_eq_true] at h ⊢
  obtain ⟨e, he, hor⟩ := h
  exact ⟨e, he, hor.symm⟩

/-- Membership in one breadth step. -/
theorem mem_nbrStep {G : MDGraph} {s : List ℕ} {x : ℕ} :
    x ∈ nbrStep G s ↔ x ∈ s ∨ (x ∈ G.nodeIds ∧ ∃ a ∈ s, adjU G a x = true) := by
  simp [nbrStep, List.mem_append, List.mem_filter, List.any_eq_true]

/-- Breadth steps only grow. -/
theorem iter_nbrStep_mono {G : MDGraph} {s : List ℕ} {k m : ℕ} (hkm : k ≤ m) :
    ∀ x ∈ (nbrStep G)^[k] s, x ∈ (nbrStep G)^[m] s := by
  induction m with
  | zero =>
    intro x hx
    have hk0 : k = 0 := Nat.le_zero.mp hkm
    rwa [hk0] at hx
  | succ m ih =>
    intro x hx
    rcases Nat.lt_or_ge k (m + 1) with hlt | hge
    · rw [Function.iterate_succ_apply']
      exact mem_nbrStep.mpr (Or.inl (ih (by omega) x hx))
    · have hk : k = m + 1 := by omega
      rwa [hk] at hx

/-- The seed node belongs to its component. -/
theorem self_mem_reachList {G : MDGraph} {v : ℕ} : v ∈ reachList G v := by
  have h0 : v ∈ (nbrStep G)^[0] [v] := by simp
  exact iter_nbrStep_mono (Nat.zero_le _) v h0

/-- Every member of the component is joined to the seed by an undirected chain
whose every node lies in the component. -/
theorem reachList_chain {G : MDGraph} {v x : ℕ} (hx : x ∈ reachList G v) :
    Relation.ReflTransGen
      (fun a b => adjU G a b = true ∧ a ∈ reachList G v ∧ b ∈ reachList G v)
      v x := by
  have main : ∀ k, k ≤ G.nodes.length → ∀ x ∈ (nbrStep G)^[k] [v],
      Relation.ReflTransGen
        (fun a b => adjU G a b = true ∧ a ∈ reachList G v ∧ b ∈ reachList G v)
        v x := by
    intro k
    induction k with
    | zero =>
      intro _ x hx
      have hxv : x = v := by simpa using hx
      rw [hxv]
    | succ k ih =>
      intro hk x hx
      rw [Function.iterate_succ_apply'] at hx
      rcases mem_nbrStep.mp hx with h | ⟨_, a, ha, hadj⟩
      · exact ih (by omega) x h
      · refine (ih (by omega) a ha).tail
          ⟨hadj, iter_nbrStep_mono (by omega) a ha, ?_⟩
        have hx' : x ∈ (nbrStep G)^[k + 1] [v] := by
          rw [Function.iterate_succ_apply']
          exact hx
        exact iter_nbrStep_mono hk x hx'
  exact main G.nodes.length (le_refl _) x hx

/-- Adjacency inside a component lifts to the induced subgraph. -/
theorem adjU_subgraph {G : MDGraph} {c : List ℕ} {a b : ℕ}
    (ha : a ∈ c) (hb : b ∈ c) (h : adjU G a b = true) :
    adjU (subgraphOn G c) a b = true := by
  rw [adjU_eq_true] at h ⊢
  obtain ⟨e, he, hor⟩ := h
  refine ⟨e, ?_, hor⟩
  simp only [subgraphOn, List.mem_filter, decide_eq_true_eq]
  rcases hor with ⟨h1, h2⟩ | ⟨h1, h2⟩
  · exact ⟨he, by rw [h1, h2]; exact ⟨ha, hb⟩⟩
  · exact ⟨he, by rw [h1, h2]; exact ⟨hb, ha⟩⟩

/-- Node ids of an induced subgraph. -/
theorem mem_subgraph_nodeIds {G : MDGraph} {c : List ℕ} {a : ℕ} :
    a ∈ (subgraphOn G c).nodeIds ↔ a ∈ G.nodeIds ∧ a ∈ c := by
  constructor
  · intro h
    obtain ⟨nd, hnd, rfl⟩ := mem_nodeIds.mp h
    simp only [subgraphOn, List.mem_filter, decide_eq_true_eq] at hnd
    exact ⟨mem_nodeIds.mpr ⟨nd, hnd.1, rfl⟩, hnd.2⟩
  · rintro ⟨ha, hc⟩
    obtain ⟨nd, hnd, rfl⟩ := mem_nodeIds.mp ha
    exact mem_nodeIds.mpr ⟨nd, by
      simp only [subgraphOn, List.mem_filter, decide_eq_true_eq]
      exact ⟨hnd, hc⟩, rfl⟩

/-- Any two nodes of the subgraph induced on a `reachList` component are
joined by an undirected chain inside that subgraph. -/
theorem subgraph_comp_connected {G : MDGraph} {v : ℕ} :
    ∀ a ∈ (subgraphOn G (reachList G v)).nodeIds,
      ∀ b ∈ (subgraphOn G (reachList G v)).nodeIds,
        Relation.ReflTransGen
          (fun x y => adjU (subgraphOn G (reachList G v)) x y = true) a b := by
  intro a ha b hb
  have hmono : ∀ x y,
      (adjU G x y = true ∧ x ∈ reachList G v ∧ y ∈ reachList G v) →
      adjU (subgraphOn G (reachList G v)) x y = true := by
    rintro x y ⟨hadj, hx, hy⟩
    exact adjU_subgraph hx hy hadj
  have hsymm : Symmetric
      (fun x y => adjU (subgraphOn G (reachList G v)) x y = true) := by
    intro x y h
    exact adjU_symm h
  have hva : Relation.ReflTransGen
      (fun x y => adjU (subgraphOn G (reachList G v)) x y = true) v a :=
    (reachList_chain (mem_subgraph_nodeIds.mp ha).2).mono hmono
  have hvb : Relation.ReflTransGen
      (fun x y => adjU (subgraphOn G (reachList G v)) x y = true) v b :=
    (reachList_chain (mem_subgraph_nodeIds.mp hb).2).mono hmono
  exact (Relation.ReflTransGen.symmetric hsymm hva).trans hvb

/-- `argmaxBy` selects from the list. -/
theorem argmaxBy_mem {f : ℕ → ℕ} : ∀ {l : List ℕ} {v : ℕ},
    argmaxBy f l = some v → v ∈ l := by
  intro l
  induction l with
  | nil => intro v h; simp [argmaxBy] at h
  | cons a rest ih =>
    intro v h
    simp only [argmaxBy] at h
    split at h
    · injection h with h'
      exact h' ▸ List.mem_cons_self a rest
    · split at h
      · injection h with h'
        exact h' ▸ List.mem_cons_self a rest
      · injection h with h'
        rename_i b heq hlt
        exact List.mem_cons_of_mem a (ih (h' ▸ heq))

/-- C5: the island returned by component selection is connected in the
undirected sense, and when the supplied anchor is a node of the pruned
network, the island contains it. -/
theorem C5_select_island (G : MDGraph) (start_node : Option ℕ) :
    (∀ a ∈ (selectComponent G start_node).nodeIds,
      ∀ b ∈ (selectComponent G start_node).nodeIds,
        Relation.ReflTransGen
          (fun x y => adjU (selectComponent G start_node) x y = true) a b)
    ∧ (∀ a, start_node = some a → a ∈ G.nodeIds →
        a ∈ (selectComponent G start_node).nodeIds) := by
  have hlargest : ∀ a ∈ (subgraphOn G (largestComp G)).nodeIds,
      ∀ b ∈ (subgraphOn G (largestComp G)).nodeIds,
        Relation.ReflTransGen
          (fun x y => adjU (subgraphOn G (largestComp G)) x y = true) a b := by
    unfold largestComp
    cases hm : argmaxBy (fun v => (reachList G v).length) G.nodeIds with
    | none =>
      intro a ha
      have := mem_subgraph_nodeIds.mp ha
      simp at this
    | some v => exact subgraph_comp_connected
  cases start_node with
  | none =>
    refine ⟨?_, ?_⟩
    · simpa [selectComponent] using hlargest
    · intro a h
      exact absurd h (by simp)
  | some a0 =>
    by_cases hmem : a0 ∈ G.nodeIds
    · have hsel : selectComponent G (some a0) = subgraphOn G (reachList G a0) := by
        simp [selectComponent, hmem]
      refine ⟨?_, ?_⟩
      · rw [hsel]
        exact subgraph_comp_connected
      · intro a ha hmem'
        have haa : a = a0 := by
          injection ha with h'
          exact h'.symm
        rw [hsel, haa]
        exact mem_subgraph_nodeIds.mpr ⟨hmem, self_mem_reachList⟩
    · have hsel : selectComponent G (some a0) = subgraphOn G (largestComp G) := by
        simp [selectComponent, hmem]
      refine ⟨?_, ?_⟩
      · rw [hsel]
        exact hlargest
      · intro a ha hmem'
        have haa : a = a0 := by
          injection ha with h'
          exact h'.symm
        rw [haa] at hmem'
        exact absurd hmem' hmem

/-- C5 witness: `Gpipe` with anchor 0 yields an island containing the anchor. -/
theorem C5_select_island_witness :
    some (0 : ℕ) = some 0 ∧ (0 : ℕ) ∈ Gpipe.nodeIds ∧
    (0 : ℕ) ∈ (selectComponent Gpipe (some 0)).nodeIds := by
  have h0 : (0 : ℕ) ∈ Gpipe.nodeIds := by simp [Gpipe, MDGraph.nodeIds]
  exact ⟨rfl, h0, (C5_select_island Gpipe (some 0)).2 0 rfl h0⟩

/-- A list with no minimum is empty. -/
theorem popMinBy_eq_none {α : Type} (key : α → ℚ) :
    ∀ {l : List α}, popMinBy key l = none → l = [] := by
  intro l
  cases l with
  | nil => intro _; rfl
  | cons a rest =>
    intro h
    simp only [popMinBy] at h
    split at h
    · exact Option.noConfusion h
    · split at h <;> exact Option.noConfusion h

/-- Characterization of `popMinBy`: the popped element belongs to the list and
has minimal key, and the remainder under- and over-approximates the list. -/
theorem popMinBy_spec {α : Type} (key : α → ℚ) :
    ∀ {l : List α} {b : α} {r : List α}, popMinBy key l = some (b, r) →
      b ∈ l ∧ (∀ x ∈ r, x ∈ l) ∧ (∀ x ∈ l, x = b ∨ x ∈ r) ∧
        (∀ x ∈ l, key b ≤ key x) := by
  intro l
  induction l with
  | nil => intro b r h; exact Option.noConfusion h
  | cons a rest ih =>
    intro b r h
    simp only [popMinBy] at h
    split at h
    · rename_i heq
      have hrest : rest = [] := popMinBy_eq_none key heq
      injection h with h1
      injection h1 with hb hr
      subst hb
      subst hr
      subst hrest
      refine ⟨List.mem_cons_self _ _, by simp, ?_, ?_⟩
      · intro x hx
        rcases List.mem_cons.mp hx with h | h
        · exact Or.inl h
        · simp at h
      · intro x hx
        rcases List.mem_cons.mp hx with h | h
        · rw [h]
        · simp at h
    · rename_i b' rest' heq
      obtain ⟨hb'mem, hsub', hcover', hmin'⟩ := ih heq
      split at h
      · rename_i hle
        injection h with h1
        injection h1 with hb hr
        subst hb
        subst hr
        refine ⟨List.mem_cons_self _ _, fun x hx => List.mem_cons_of_mem _ hx, ?_, ?_⟩
        · intro x hx
          rcases List.mem_cons.mp hx with h | h
          · exact Or.inl h
          · exact Or.inr h
        · intro x hx
          rcases List.mem_cons.mp hx with h | h
          · rw [h]
          · exact le_trans hle (hmin' x h)
      · rename_i hnle
        injection h with h1
        injection h1 with hb hr
        subst hb
        subst hr
        refine ⟨List.mem_cons_of_mem _ hb'mem, ?_, ?_, ?_⟩
        · intro x hx
          rcases List.mem_cons.mp hx with h | h
          · exact h ▸ List.mem_cons_self _ _
          · exact List.mem_cons_of_mem _ (hsub' x h)
        · intro x hx
          rcases List.mem_cons.mp hx with h | h
          · exact Or.inr (h ▸ List.mem_cons_self _ _)
          · rcases hcover' x h with h' | h'
            · exact Or.inl h'
            · exact Or.inr (List.mem_cons_of_mem _ h')
        · intro x hx
          rcases List.mem_cons.mp hx with h | h
          · rw [h]
            exact le_of_lt (lt_of_not_le hnle)
          · exact hmin' x h

/-- Splitting the cost of a path that starts with an edge. -/
theorem pathCost_cons_cons {W : ℕ → ℕ → Option ℚ} {u v : ℕ} {rest : List ℕ} {c : ℚ} :
    pathCost W (u :: v :: rest) = some c ↔
      ∃ w c', W u v = some w ∧ pathCost W (v :: rest) = some c' ∧ c = w + c' := by
  simp only [pathCost]
  cases hW : W u v with
  | none => simp
  | some w =>
    cases hp : pathCost W (v :: rest) with
    | none => simp
    | some c' =>
      constructor
      · intro h
        injection h with h'
        exact ⟨w, c', rfl, rfl, h'.symm⟩
      · rintro ⟨w'', c'', hw, hc, rfl⟩
        injection hw with hw'
        injection hc with hc'
        rw [hw', hc']

/-- The one-node path. -/
theorem isPath_single {W : ℕ → ℕ → Option ℚ} {s : ℕ} : IsPath W s s [s] 0 :=
  ⟨rfl, rfl, rfl⟩

/-- Extending a path by one edge. -/
theorem isPath_append_edge {W : ℕ → ℕ → Option ℚ} :
    ∀ {p : List ℕ} {s n : ℕ} {g : ℚ}, IsPath W s n p g →
      ∀ {v : ℕ} {w : ℚ}, W n v = some w → IsPath W s v (p ++ [v]) (g + w) := by
  intro p
  induction p with
  | nil => intro s n g hp; exact absurd hp.1 (by simp)
  | cons a rest ih =>
    intro s n g hp v w hw
    obtain ⟨hhead, hlast, hcost⟩ := hp
    have hsa : a = s := by
      injection hhead
    cases rest with
    | nil =>
      have hna : a = n := by
        injection hlast
      have hg0 : g = 0 := by
        injection hcost with h'
        exact h'.symm
      subst hsa
      subst hna
      subst hg0
      refine ⟨rfl, rfl, ?_⟩
      simp only [List.cons_append, List.nil_append, pathCost, hw]
      rw [add_zero, zero_add]
    | cons b rest' =>
      obtain ⟨w1, c1, hw1, hc1, hcsum⟩ := pathCost_cons_cons.mp hcost
      have hlast' : (b :: rest').getLast? = some n := by
        rwa [List.getLast?_cons_cons] at hlast
      have hp' : IsPath W b n (b :: rest') c1 := ⟨rfl, hlast', hc1⟩
      have hext := ih hp' hw
      obtain ⟨hh2, hl2, hc2⟩ := hext
      subst hsa
      refine ⟨rfl, ?_, ?_⟩
      · rw [List.cons_append, List.cons_append, List.getLast?_cons_cons]
        rw [List.cons_append] at hl2
        exact hl2
      · rw [List.cons_append, List.cons_append]
        apply pathCost_cons_cons.mpr
        refine ⟨w1, c1 + w, hw1, ?_, ?_⟩
        · rw [List.cons_append] at hc2
          exact hc2
        · rw [hcsum]
          ring

/-- Telescoping consistency along a path: a consistent heuristic never exceeds
the path cost plus the heuristic at the path's end. -/
theorem chain_heuristic {W : ℕ → ℕ → Option ℚ} {h : ℕ → ℚ}
    (hcons : Consistent W h) :
    ∀ {q : List ℕ} {y t : ℕ} {c : ℚ}, IsPath W y t q c → h y ≤ c + h t := by
  intro q
  induction q with
  | nil => intro y t c hp; exact absurd hp.1 (by simp)
  | cons a rest ih =>
    intro y t c hp
    obtain ⟨hhead, hlast, hcost⟩ := hp
    have hay : a = y := by injection hhead
    cases rest with
    | nil =>
      have hat : a = t := by injection hlast
      have hc0 : c = 0 := by
        injection hcost with h'
        exact h'.symm
      subst hay
      subst hat
      subst hc0
      simp
    | cons b rest' =>
      obtain ⟨w, c', hw, hc', hcsum⟩ := pathCost_cons_cons.mp hcost
      have hlast' : (b :: rest').getLast? = some t := by
        rwa [List.getLast?_cons_cons] at hlast
      have hb := ih ⟨rfl, hlast', hc'⟩
      have ha := hcons a b w hw
      subst hay
      rw [hcsum]
      linarith

/-- The minimum of a rational list is one of its elements. -/
theorem listMinQ_mem : ∀ {l : List ℚ} {m : ℚ}, listMinQ l = some m → m ∈ l := by
  intro l
  induction l with
  | nil => intro m h; exact Option.noConfusion h
  | cons a rest ih =>
    intro m h
    simp only [listMinQ] at h
    split at h
    · injection h with h'
      exact h' ▸ List.mem_cons_self _ _
    · rename_i b heq
      injection h with h'
      rcases min_choice a b with hm | hm
      · rw [← h', hm]
        exact List.mem_cons_self _ _
      · rw [← h', hm]
        exact List.mem_cons_of_mem _ (ih heq)

/-- A nonempty list has a minimum. -/
theorem listMinQ_isSome : ∀ {l : List ℚ}, l ≠ [] → ∃ m, listMinQ l = some m := by
  intro l
  cases l with
  | nil => intro h; exact absurd rfl h
  | cons a rest =>
    intro _
    simp only [listMinQ]
    cases listMinQ rest with
    | none => exact ⟨a, rfl⟩
    | some b => exact ⟨min a b, rfl⟩

/-- A defined traversal weight comes from some parallel edge's
length-or-1 value. -/
theorem weightOpt_mem {G : MDGraph} {u v : ℕ} {w : ℚ}
    (h : weightOpt G u v = some w) :
    ∃ d ∈ parallelAttrs G u v, w = d.length.getD 1 := by
  have hm := listMinQ_mem h
  obtain ⟨d, hd, hdw⟩ := List.mem_map.mp hm
  exact ⟨d, hd, hdw.symm⟩

/-- The successor enumeration coincides with defined traversal weights. -/
theorem succWeights_iff {G : MDGraph} {u v : ℕ} {w : ℚ} :
    (v, w) ∈ succWeights G u ↔ weightOpt G u v = some w := by
  constructor
  · intro h
    obtain ⟨v', hv', hmap⟩ := List.mem_filterMap.mp h
    cases hwo : weightOpt G u v' with
    | none => rw [hwo] at hmap; exact Option.noConfusion hmap
    | some w' =>
      rw [hwo] at hmap
      injection hmap with h1
      injection h1 with hv hw
      rw [← hv, ← hw]
      exact hwo
  · intro h
    apply List.mem_filterMap.mpr
    refine ⟨v, ?_, by rw [h]; rfl⟩
    apply List.mem_dedup.mpr
    have hne : parallelAttrs G u v ≠ [] := by
      intro hnil
      rw [weightOpt, hnil] at h
      exact Option.noConfusion h
    have : ∃ e ∈ G.edges, e.1 = u ∧ e.2.1 = v := by
      cases hpar : parallelAttrs G u v with
      | nil => exact absurd hpar hne
      | cons d ds =>
        have hd : d ∈ parallelAttrs G u v := hpar ▸ List.mem_cons_self _ _
        obtain ⟨e, he, _⟩ := List.mem_map.mp hd
        have he' := List.mem_filter.mp he
        exact ⟨e, he'.1, by simpa using he'.2⟩
    obtain ⟨e, he, heu, hev⟩ := this
    apply List.mem_map.mpr
    refine ⟨e, ?_, hev⟩
    apply List.mem_filter.mpr
    exact ⟨he, by simp [heu]⟩

/-- Walking a path out of a settled node: either the endpoint is settled at no
more cost, or the path crosses the frontier with slack. -/
theorem cut_aux {G : MDGraph} {F : List AEntry} {E : List (ℕ × ℚ)}
    (herelax : ∀ x ∈ E, ∀ v w, weightOpt G x.1 v = some w →
      (∃ gv, (v, gv) ∈ E ∧ gv ≤ x.2 + w) ∨
      (∃ e ∈ F, e.1 = v ∧ e.2.1 ≤ x.2 + w)) :
    ∀ {q : List ℕ} {x : ℕ} {gx : ℚ} {t' : ℕ} {c2 : ℚ},
      (x, gx) ∈ E → IsPath (weightOpt G) x t' q c2 →
      (∃ gz, (t', gz) ∈ E ∧ gz ≤ gx + c2) ∨
      (∃ e ∈ F, ∃ q2 c', IsPath (weightOpt G) e.1 t' q2 c' ∧
        e.2.1 + c' ≤ gx + c2) := by
  intro q
  induction q with
  | nil => intro x gx t' c2 _ hp; exact absurd hp.1 (by simp)
  | cons a rest ih =>
    intro x gx t' c2 hxE hp
    obtain ⟨hhead, hlast, hcost⟩ := hp
    have hax : a = x := by injection hhead
    subst hax
    cases rest with
    | nil =>
      have hat : a = t' := by injection hlast
      have hc0 : c2 = 0 := by
        injection hcost with h'
        exact h'.symm
      subst hat
      subst hc0
      exact Or.inl ⟨gx, hxE, by linarith⟩
    | cons b rest' =>
      obtain ⟨w, c', hw, hc', hcsum⟩ := pathCost_cons_cons.mp hcost
      have hlast' : (b :: rest').getLast? = some t' := by
        rwa [List.getLast?_cons_cons] at hlast
      have hpb : IsPath (weightOpt G) b t' (b :: rest') c' := ⟨rfl, hlast', hc'⟩
      rcases herelax (a, gx) hxE b w hw with ⟨gv, hgvE, hgvle⟩ |
        ⟨e, heF, hev, hele⟩
      · rcases ih hgvE hpb with ⟨gz, hgz, hle⟩ | ⟨e, heF, q2, c'', hq2, hle⟩
        · exact Or.inl ⟨gz, hgz, by linarith⟩
        · exact Or.inr ⟨e, heF, q2, c'', hq2, by linarith⟩
      · refine Or.inr ⟨e, heF, b :: rest', c', ?_, ?_⟩
        · rw [hev]
          exact hpb
        · linarith

/-- Every path from the source to an unsettled node crosses the frontier with
slack. -/
theorem frontier_cut {G : MDGraph} {s t' : ℕ} {F : List AEntry}
    {E : List (ℕ × ℚ)}
    (herelax : ∀ x ∈ E, ∀ v w, weightOpt G x.1 v = some w →
      (∃ gv, (v, gv) ∈ E ∧ gv ≤ x.2 + w) ∨
      (∃ e ∈ F, e.1 = v ∧ e.2.1 ≤ x.2 + w))
    (hscover : (∃ gs, (s, gs) ∈ E ∧ gs ≤ 0) ∨
      (∃ e ∈ F, e.1 = s ∧ e.2.1 ≤ 0)) :
    ∀ {q : List ℕ} {c : ℚ}, IsPath (weightOpt G) s t' q c →
      (∀ gz, (t', gz) ∉ E) →
      ∃ e ∈ F, ∃ q2 c2, IsPath (weightOpt G) e.1 t' q2 c2 ∧ e.2.1 + c2 ≤ c := by
  intro q c hq htE
  rcases hscover with ⟨gs, hgsE, hgs0⟩ | ⟨e, heF, hes, hele⟩
  · rcases cut_aux herelax hgsE hq with ⟨gz, hgz, hle⟩ |
      ⟨e, heF, q2, c2, hq2, hle⟩
    · exact absurd hgz (htE gz)
    · exact ⟨e, heF, q2, c2, hq2, by linarith⟩
  · refine ⟨e, heF, q, c, ?_, by linarith⟩
    rw [hes]
    exact hq

/-- The popped entry of minimal `g + h` priority toward an unsettled node `n`
beats every path from the source to `n`, for a consistent heuristic. -/
theorem pop_le_all {G : MDGraph} {h : ℕ → ℚ} {s : ℕ} {F : List AEntry}
    {E : List (ℕ × ℚ)} {e : AEntry} {rest : List AEntry}
    (hcons : Consistent (weightOpt G) h)
    (herelax : ∀ x ∈ E, ∀ v w, weightOpt G x.1 v = some w →
      (∃ gv, (v, gv) ∈ E ∧ gv ≤ x.2 + w) ∨
      (∃ e ∈ F, e.1 = v ∧ e.2.1 ≤ x.2 + w))
    (hscover : (∃ gs, (s, gs) ∈ E ∧ gs ≤ 0) ∨
      (∃ e ∈ F, e.1 = s ∧ e.2.1 ≤ 0))
    (hpop : popMinBy (entryKey h) F = some (e, rest))
    (hnE : ∀ gz, (e.1, gz) ∉ E) :
    ∀ q c, IsPath (weightOpt G) s e.1 q c → e.2.1 ≤ c := by
  intro q c hq
  obtain ⟨e0, he0F, q2, c2, hq2, hle⟩ := frontier_cut herelax hscover hq hnE
  have hmin := (popMinBy_spec (entryKey h) hpop).2.2.2 e0 he0F
  have hchain := chain_heuristic hcons hq2
  simp only [entryKey] at hmin
  linarith

/-- Skipping a stale pop preserves the invariant. -/
theorem AInv_stale {G : MDGraph} {h : ℕ → ℚ} {s t : ℕ} {F : List AEntry}
    {E : List (ℕ × ℚ)} {e : AEntry} {rest : List AEntry}
    (inv : AInv G s t F E)
    (hpop : popMinBy (entryKey h) F = some (e, rest))
    (hex : e.1 ∈ E.map Prod.fst) : AInv G s t rest E := by
  obtain ⟨hmem, hsub, hcover, hmin⟩ := popMinBy_spec _ hpop
  refine ⟨inv.tnotE, fun e' he' => inv.freal e' (hsub e' he'), inv.ereal,
    inv.elow, ?_, ?_⟩
  · intro x hx v w hw
    rcases inv.erelax x hx v w hw with hleft | ⟨e0, he0F, he0v, he0le⟩
    · exact Or.inl hleft
    · rcases hcover e0 he0F with he0e | he0rest
      · subst he0e
        rw [he0v] at hex
        obtain ⟨xv, hxvE, hxv1⟩ := List.mem_map.mp hex
        obtain ⟨px, hpx⟩ := inv.ereal x hx
        have hpath := isPath_append_edge hpx hw
        have hle := inv.elow xv hxvE _ _ (by rw [hxv1]; exact hpath)
        refine Or.inl ⟨xv.2, ?_, by linarith⟩
        rw [← hxv1]
        exact hxvE
      · exact Or.inr ⟨e0, he0rest, he0v, he0le⟩
  · rcases inv.scover with hleft | ⟨e0, he0F, he0s, he0le⟩
    · exact Or.inl hleft
    · rcases hcover e0 he0F with he0e | he0rest
      · subst he0e
        rw [he0s] at hex
        obtain ⟨xs, hxsE, hxs1⟩ := List.mem_map.mp hex
        have hle := inv.elow xs hxsE [s] 0 (by rw [hxs1]; exact isPath_single)
        refine Or.inl ⟨xs.2, ?_, by linarith⟩
        rw [← hxs1]
        exact hxsE
      · exact Or.inr ⟨e0, he0rest, he0s, he0le⟩

/-- Expanding an unsettled non-target node preserves the invariant. -/
theorem AInv_expand {G : MDGraph} {h : ℕ → ℚ} {s t : ℕ} {F : List AEntry}
    {E : List (ℕ × ℚ)} {e : AEntry} {rest : List AEntry}
    (hcons : Consistent (weightOpt G) h)
    (inv : AInv G s t F E)
    (hpop : popMinBy (entryKey h) F = some (e, rest))
    (hex : e.1 ∉ E.map Prod.fst) (het : e.1 ≠ t) :
    AInv G s t
      (rest ++ (succWeights G e.1).map fun vw =>
        (vw.1, e.2.1 + vw.2, e.2.2 ++ [vw.1]))
      ((e.1, e.2.1) :: E) := by
  obtain ⟨hmem, hsub, hcover, hmin⟩ := popMinBy_spec _ hpop
  have hnE : ∀ gz, (e.1, gz) ∉ E := by
    intro gz hgz
    exact hex (List.mem_map.mpr ⟨(e.1, gz), hgz, rfl⟩)
  have hplow : ∀ q c, IsPath (weightOpt G) s e.1 q c → e.2.1 ≤ c :=
    pop_le_all hcons inv.erelax inv.scover hpop hnE
  have hereal := inv.freal e hmem
  refine ⟨?_, ?_, ?_, ?_, ?_, ?_⟩
  · intro gx hgx
    rcases List.mem_cons.mp hgx with hhd | htl
    · have : t = e.1 := congrArg Prod.fst hhd
      exact het this.symm
    · exact inv.tnotE gx htl
  · intro e' he'
    rcases List.mem_append.mp he' with hrest | hpush
    · exact inv.freal e' (hsub e' hrest)
    · obtain ⟨vw, hvw, heq⟩ := List.mem_map.mp hpush
      have hw := succWeights_iff.mp hvw
      have := isPath_append_edge hereal hw
      rw [← heq]
      exact this
  · intro x hx
    rcases List.mem_cons.mp hx with hhd | htl
    · subst hhd
      exact ⟨e.2.2, hereal⟩
    · exact inv.ereal x htl
  · intro x hx q c hq
    rcases List.mem_cons.mp hx with hhd | htl
    · subst hhd
      exact hplow q c hq
    · exact inv.elow x htl q c hq
  · intro x hx v w hw
    rcases List.mem_cons.mp hx with hhd | htl
    · subst hhd
      refine Or.inr ⟨(v, e.2.1 + w, e.2.2 ++ [v]), ?_, rfl, le_refl _⟩
      apply List.mem_append.mpr
      refine Or.inr (List.mem_map.mpr ⟨(v, w), succWeights_iff.mpr hw, rfl⟩)
    · rcases inv.erelax x htl v w hw with ⟨gv, hgvE, hgvle⟩ |
        ⟨e0, he0F, he0v, he0le⟩
      · exact Or.inl ⟨gv, List.mem_cons_of_mem _ hgvE, hgvle⟩
      · rcases hcover e0 he0F with he0e | he0rest
        · subst he0e
          refine Or.inl ⟨e0.2.1, ?_, he0le⟩
          rw [← he0v]
          exact List.mem_cons_self _ _
        · exact Or.inr ⟨e0, List.mem_append.mpr (Or.inl he0rest), he0v, he0le⟩
  · rcases inv.scover with ⟨gs, hgsE, hgs0⟩ | ⟨e0, he0F, he0s, he0le⟩
    · exact Or.inl ⟨gs, List.mem_cons_of_mem _ hgsE, hgs0⟩
    · rcases hcover e0 he0F with he0e | he0rest
      · subst he0e
        have hle : e0.2.1 ≤ 0 := by
          have := hplow [s] 0 (by rw [← he0s]; exact isPath_single)
          linarith
        refine Or.inl ⟨e0.2.1, ?_, hle⟩
        rw [← he0s]
        exact List.mem_cons_self _ _
      · exact Or.inr ⟨e0, List.mem_append.mpr (Or.inl he0rest), he0s, he0le⟩

/-- The A* loop, run from a state satisfying the invariant with a consistent
heuristic, returns a real path from `s` to `t` whose cost is minimal. -/
theorem astarLoop_spec {G : MDGraph} {h : ℕ → ℚ} {s t : ℕ}
    (hcons : Consistent (weightOpt G) h) :
    ∀ (fuel : ℕ) (F : List AEntry) (E : List (ℕ × ℚ)), AInv G s t F E →
      ∀ p c, astarLoop G h t fuel F E = some (p, c) →
        IsPath (weightOpt G) s t p c ∧
          ∀ q c', IsPath (weightOpt G) s t q c' → c ≤ c' := by
  intro fuel
  induction fuel with
  | zero => intro F E _ p c hrun; exact Option.noConfusion hrun
  | succ fuel ih =>
    intro F E inv p c hrun
    rw [astarLoop] at hrun
    cases hpop : popMinBy (entryKey h) F with
    | none =>
      rw [hpop] at hrun
      exact Option.noConfusion hrun
    | some er =>
      obtain ⟨e, rest⟩ := er
      rw [hpop] at hrun
      simp only at hrun
      by_cases het : e.1 = t
      · rw [if_pos het] at hrun
        injection hrun with h1
        injection h1 with hp hc
        subst hp
        subst hc
        have hreal := inv.freal e (popMinBy_spec _ hpop).1
        have hnE : ∀ gz, (e.1, gz) ∉ E := by
          intro gz
          rw [het]
          exact inv.tnotE gz
        constructor
        · rw [← het]
          exact hreal
        · intro q c' hq
          have hq' : IsPath (weightOpt G) s e.1 q c' := by
            rw [het]
            exact hq
          exact pop_le_all hcons inv.erelax inv.scover hpop hnE q c' hq'
      · rw [if_neg het] at hrun
        by_cases hex : e.1 ∈ E.map Prod.fst
        · rw [if_pos hex] at hrun
          exact ih rest E (AInv_stale inv hpop hex) p c hrun
        · rw [if_neg hex] at hrun
          exact ih _ _ (AInv_expand hcons inv hpop hex het) p c hrun

/-- The A* loop only returns real paths from `s` to `t`, with their cost. -/
theorem astarLoop_sound {G : MDGraph} {h : ℕ → ℚ} {s t : ℕ} :
    ∀ (fuel : ℕ) (F : List AEntry) (E : List (ℕ × ℚ)),
      (∀ e ∈ F, IsPath (weightOpt G) s e.1 e.2.2 e.2.1) →
      ∀ p c, astarLoop G h t fuel F E = some (p, c) →
        IsPath (weightOpt G) s t p c := by
  intro fuel
  induction fuel with
  | zero => intro F E _ p c hrun; exact Option.noConfusion hrun
  | succ fuel ih =>
    intro F E hfreal p c hrun
    rw [astarLoop] at hrun
    cases hpop : popMinBy (entryKey h) F with
    | none =>
      rw [hpop] at hrun
      exact Option.noConfusion hrun
    | some er =>
      obtain ⟨e, rest⟩ := er
      rw [hpop] at hrun
      simp only at hrun
      obtain ⟨hmem, hsub, _, _⟩ := popMinBy_spec _ hpop
      by_cases het : e.1 = t
      · rw [if_pos het] at hrun
        injection hrun with h1
        injection h1 with hp hc
        subst hp
        subst hc
        rw [← het]
        exact hfreal e hmem
      · rw [if_neg het] at hrun
        by_cases hex : e.1 ∈ E.map Prod.fst
        · rw [if_pos hex] at hrun
          exact ih rest E (fun e' he' => hfreal e' (hsub e' he')) p c hrun
        · rw [if_neg hex] at hrun
          refine ih _ _ ?_ p c hrun
          intro e' he'
          rcases List.mem_append.mp he' with hrest | hpush
          · exact hfreal e' (hsub e' hrest)
          · obtain ⟨vw, hvw, heq⟩ := List.mem_map.mp hpush
            have hw := succWeights_iff.mp hvw
            have := isPath_append_edge (hfreal e hmem) hw
            rw [← heq]
            exact this

/-- The initial A* state satisfies the invariant. -/
theorem AInv_init {G : MDGraph} {s t : ℕ} :
    AInv G s t [(s, 0, [s])] [] := by
  refine ⟨by simp, ?_, by simp, by simp, by simp, ?_⟩
  · intro e he
    have he' : e = (s, 0, [s]) := by simpa using he
    subst he'
    exact isPath_single
  · exact Or.inr ⟨(s, 0, [s]), List.mem_cons_self _ _, rfl, le_refl 0⟩

/-- The trivial heuristic is consistent whenever all traversal weights are
nonnegative. -/
theorem consistent_hZero {G : MDGraph}
    (hw : ∀ e ∈ G.edges, 0 ≤ (e.2.2.2).length.getD 1) :
    Consistent (weightOpt G) hZero := by
  intro u v w h
  obtain ⟨d, hd, rfl⟩ := weightOpt_mem h
  obtain ⟨e, he, hed⟩ := List.mem_map.mp hd
  have hnn := hw e (List.mem_filter.mp he).1
  rw [hed] at hnn
  simp only [hZero]
  linarith

/-- C1 (amended): over any selected island, provided the heuristic is
consistent with the traversal weights — which holds for the haversine
heuristic exactly when every parallel edge's length dominates the
straight-line distance between its endpoints — every path returned by the A*
search is a real path from start to end whose cost, measured with the
minimum-length parallel edge as each ordered pair's traversal cost, is
minimal over all such paths. -/
theorem C1_astar_optimal (G : MDGraph) (h : ℕ → ℚ) (s t : ℕ)
    (hcons : Consistent (weightOpt G) h) (p : List ℕ) (c : ℚ)
    (hrun : astar G h s t = some (p, c)) :
    IsPath (weightOpt G) s t p c ∧
      ∀ q c', IsPath (weightOpt G) s t q c' → c ≤ c' :=
  astarLoop_spec hcons (astarFuel G) _ _ AInv_init p c hrun

/-- C1 witness: on the two-node island with parallel edges of lengths 5 and 7
and the trivial heuristic, the search returns the path `[0, 1]` at cost 5,
which is optimal. -/
theorem C1_astar_optimal_witness :
    astar Gpar hZero 0 1 = some ([0, 1], 5) ∧
    IsPath (weightOpt Gpar) 0 1 [0, 1] 5 ∧
    ∀ q c', IsPath (weightOpt Gpar) 0 1 q c' → 5 ≤ c' := by
  have hrun : astar Gpar hZero 0 1 = some ([0, 1], 5) := by
    norm_num [astar, astarFuel, Gpar, astarLoop, popMinBy, entryKey,
      succWeights, weightOpt, parallelAttrs, listMinQ, hZero, MDGraph.nodeIds,
      List.dedup_cons_of_mem, List.dedup_cons_of_not_mem]
  have hcons : Consistent (weightOpt Gpar) hZero := by
    apply consistent_hZero
    intro e he
    rcases List.mem_cons.mp he with h1 | h1
    · rw [h1]
      norm_num
    · rcases List.mem_cons.mp h1 with h2 | h2
      · rw [h2]
        norm_num
      · simp [Gpar] at h2
  have hmain := C1_astar_optimal Gpar hZero 0 1 hcons [0, 1] 5 hrun
  exact ⟨hrun, hmain.1, hmain.2⟩

/-- C1 counterexample: on the island `Gfar` (two nodes on the equator 180
degrees apart joined by a single edge of length 1 meter), a path from node 0
to node 1 exists, the network distance of every such path is 1, and the
haversine heuristic at the start strictly exceeds it — the heuristic is not
admissible for arbitrary edge lengths, refuting the claim as universally
stated. -/
theorem C1_counterexample :
    (∃ q c, IsPath (weightOpt Gfar) 0 1 q c) ∧
    ∀ q c, IsPath (weightOpt Gfar) 0 1 q c →
      (c : ℝ) < haversine_distance 0 1 Gfar := by
  have hW01 : weightOpt Gfar 0 1 = some 1 := by
    norm_num [weightOpt, parallelAttrs, listMinQ, Gfar]
  have hwchar : ∀ u v w, weightOpt Gfar u v = some w → u = 0 ∧ v = 1 ∧ w = 1 := by
    intro u v w h
    obtain ⟨d, hd, rfl⟩ := weightOpt_mem h
    obtain ⟨e, he, hed⟩ := List.mem_map.mp hd
    have he' := List.mem_filter.mp he
    have heG : e = (0, 1, 0, (⟨some 1, none⟩ : EdgeAttr)) := by
      simpa [Gfar] using he'.1
    have hcond := he'.2
    rw [heG] at hcond
    simp only [decide_eq_true_eq] at hcond
    refine ⟨hcond.1.symm, hcond.2.symm, ?_⟩
    rw [← hed, heG]
    rfl
  have hcost1 : ∀ q c, IsPath (weightOpt Gfar) 0 1 q c → c = 1 := by
    intro q c hp
    obtain ⟨hhead, hlast, hcost⟩ := hp
    cases q with
    | nil => exact absurd hhead (by simp)
    | cons a rest =>
      have ha : a = 0 := by injection hhead
      subst ha
      cases rest with
      | nil =>
        have : (0 : ℕ) = 1 := by injection hlast
        exact absurd this (by omega)
      | cons b rest' =>
        obtain ⟨w, c', hw, hc', hcsum⟩ := pathCost_cons_cons.mp hcost
        obtain ⟨_, hb, hw1⟩ := hwchar 0 b w hw
        subst hb
        subst hw1
        cases rest' with
        | nil =>
          have hc0 : c' = 0 := by
            injection hc' with h'
            exact h'.symm
          rw [hcsum, hc0]
          norm_num
        | cons z rest'' =>
          obtain ⟨w2, c'', hw2, _, _⟩ := pathCost_cons_cons.mp hc'
          obtain ⟨h10, _, _⟩ := hwchar 1 z w2 hw2
          exact absurd h10 (by omega)
  have hnd0 : nodeDatum Gfar 0 = ⟨0, 0⟩ := by
    simp [nodeDatum, Gfar, List.find?]
  have hnd1 : nodeDatum Gfar 1 = ⟨180, 0⟩ := by
    simp [nodeDatum, Gfar, List.find?]
  have hr0 : radiansQ 0 = 0 := by
    simp [radiansQ]
  have hr180 : radiansQ 180 = Real.pi := by
    rw [radiansQ]
    push_cast
    ring
  have hhav : haversine_distance 0 1 Gfar = Real.pi * 6371000 := by
    rw [haversine_distance, hnd0, hnd1]
    simp only [hr0, hr180]
    norm_num [Real.sin_pi_div_two, Real.sqrt_one, Real.arcsin_one]
    ring
  constructor
  · refine ⟨[0, 1], 1, rfl, rfl, ?_⟩
    simp only [pathCost, hW01]
    norm_num
  · intro q c hp
    rw [hcost1 q c hp, hhav]
    have hpi := Real.pi_gt_three
    push_cast
    nlinarith

/-- When every edge carries a `length` attribute, the serializer's
recomputation of the route total agrees with the search's path cost. -/
theorem totalDist_eq_pathCost {G : MDGraph}
    (hlen : ∀ e ∈ G.edges, (e.2.2.2).length.isSome) :
    ∀ p c, pathCost (weightOpt G) p = some c → totalDist G p = some c := by
  intro p
  induction p with
  | nil => intro c hc; exact absurd hc (by simp [pathCost])
  | cons u rest ih =>
    intro c hc
    cases rest with
    | nil =>
      have hc0 : c = 0 := by
        injection hc with h'
        exact h'.symm
      subst hc0
      rfl
    | cons v rest' =>
      obtain ⟨w, c', hw, hc', rfl⟩ := pathCost_cons_cons.mp hc
      have hmapeq : (parallelAttrs G u v).map (fun d => d.length.getD 0) =
          (parallelAttrs G u v).map (fun d => d.length.getD 1) := by
        apply List.map_congr_left
        intro d hd
        obtain ⟨e, he, hed⟩ := List.mem_map.mp hd
        have hs := hlen e (List.mem_filter.mp he).1
        rw [hed] at hs
        obtain ⟨lv, hlv⟩ := Option.isSome_iff_exists.mp hs
        rw [hlv]
        rfl
      have hhop : hopDist G u v = some w := by
        rw [hopDist, hmapeq]
        exact hw
      have hrec := ih c' hc'
      simp only [totalDist, hhop, hrec]

/-- C2 (amended): for every successful serialization on a network whose edges
all carry lengths, the search returned a path whose independently recomputed
sum of per-hop minimum parallel-edge lengths equals the search's reported
path cost, and the serialized total distance is that sum rounded to two
decimals (with kilometers likewise rounded after division by 1000). -/
theorem C2_total_distance (G : MDGraph) (h : ℕ → ℚ) (s t : ℕ) (out : RouteOut)
    (hout : get_a_star_geojson G h s t = some out)
    (hlen : ∀ e ∈ G.edges, (e.2.2.2).length.isSome) :
    ∃ p c, astar G h s t = some (p, c) ∧
      IsPath (weightOpt G) s t p c ∧
      totalDist G p = some c ∧
      out.distance_meters = round2 c ∧
      out.distance_km = round2 (c / 1000) := by
  rw [get_a_star_geojson] at hout
  split at hout
  · cases hrun : astar G h s t with
    | none =>
      rw [hrun] at hout
      exact Option.noConfusion hout
    | some pc =>
      obtain ⟨p, c0⟩ := pc
      rw [hrun] at hout
      simp only at hout
      have hinv0 : AInv G s t [(s, 0, [s])] [] := AInv_init
      have hrun' : astarLoop G h t (astarFuel G) [(s, 0, [s])] [] =
          some (p, c0) := by
        rw [← astar]
        exact hrun
      have hreal : IsPath (weightOpt G) s t p c0 :=
        astarLoop_sound (astarFuel G) _ _ hinv0.freal p c0 hrun'
      have htot : totalDist G p = some c0 :=
        totalDist_eq_pathCost hlen p c0 hreal.2.2
      rw [htot] at hout
      cases hlc : lineCoords G p with
      | none =>
        rw [hlc] at hout
        exact Option.noConfusion hout
      | some cs =>
        rw [hlc] at hout
        simp only at hout
        injection hout with h1
        refine ⟨p, c0, rfl, hreal, htot, ?_, ?_⟩
        · rw [← h1]
        · rw [← h1]
  · exact Option.noConfusion hout

/-- C2 witness: on `Gpar` the serializer reports 5 meters, which is both the
recomputed per-hop minimum sum and the search's reported cost. -/
theorem C2_total_distance_witness :
    get_a_star_geojson Gpar hZero 0 1 = some outPar ∧
    (∀ e ∈ Gpar.edges, (e.2.2.2).length.isSome) ∧
    ∃ p c, astar Gpar hZero 0 1 = some (p, c) ∧
      IsPath (weightOpt Gpar) 0 1 p c ∧
      totalDist Gpar p = some c ∧
      outPar.distance_meters = round2 c ∧
      outPar.distance_km = round2 (c / 1000) := by
  have hout : get_a_star_geojson Gpar hZero 0 1 = some outPar := by
    norm_num [get_a_star_geojson, astar, astarFuel, Gpar, astarLoop, popMinBy,
      entryKey, succWeights, weightOpt, parallelAttrs, listMinQ, hZero,
      MDGraph.nodeIds, totalDist, hopDist, lineCoords, nodeCoordOpt,
      round2, roundHalfEven, Int.fract, outPar,
      List.dedup_cons_of_mem, List.dedup_cons_of_not_mem]
  have hlen : ∀ e ∈ Gpar.edges, (e.2.2.2).length.isSome := by
    intro e he
    rcases List.mem_cons.mp he with h1 | h1
    · rw [h1]
      rfl
    · rcases List.mem_cons.mp h1 with h2 | h2
      · rw [h2]
        rfl
      · simp [Gpar] at h2
  exact ⟨hout, hlen, C2_total_distance Gpar hZero 0 1 outPar hout hlen⟩

/-- C2 counterexample: on `Gthird` (a single edge of length 1/3 meter) the
serialized total is 0.33 meters, which differs from the recomputed sum 1/3 of
per-hop minimum parallel-edge lengths — the reported value is rounded, so the
claimed exact equality with the recomputed sum fails. -/
theorem C2_counterexample :
    get_a_star_geojson Gthird hZero 0 1 = some outThird ∧
    totalDist Gthird [0, 1] = some (1/3) ∧
    outThird.distance_meters ≠ (1/3 : ℚ) := by
  refine ⟨?_, ?_, ?_⟩
  · norm_num [get_a_star_geojson, astar, astarFuel, Gthird, astarLoop,
      popMinBy, entryKey, succWeights, weightOpt, parallelAttrs, listMinQ,
      hZero, MDGraph.nodeIds, totalDist, hopDist, lineCoords, nodeCoordOpt,
      round2, roundHalfEven, Int.fract, outThird,
      List.dedup_cons_of_mem, List.dedup_cons_of_not_mem]
  · norm_num [totalDist, hopDist, parallelAttrs, listMinQ, Gthird]
  · norm_num [outThird]

/-- C8 (amended): when the supplied anchor is absent from the pruned network,
component selection silently falls back to the largest component — its result
is identical to an anchorless call, with no notice of any kind in the return
value; and `get_a_star_geojson` returns the single undifferentiated `None`
both when `nx.astar_path` raises `NetworkXNoPath` and when any other internal
error occurs (such as a start or end node missing from the graph), so the two
failure kinds are not distinguishable by the caller. -/
theorem C8_failure_surfacing :
    (∀ (G : MDGraph) (a : ℕ), a ∉ G.nodeIds →
      selectComponent G (some a) = selectComponent G none)
    ∧ (∀ (G : MDGraph) (h : ℕ → ℚ) (s t : ℕ),
        ¬(s ∈ G.nodeIds ∧ t ∈ G.nodeIds) →
        get_a_star_geojson G h s t = none)
    ∧ (∀ (G : MDGraph) (h : ℕ → ℚ) (s t : ℕ),
        astar G h s t = none → get_a_star_geojson G h s t = none) := by
  refine ⟨?_, ?_, ?_⟩
  · intro G a ha
    simp [selectComponent, ha]
  · intro G h s t hm
    rw [get_a_star_geojson, if_neg hm]
  · intro G h s t hrun
    rw [get_a_star_geojson]
    split
    · rw [hrun]
    · rfl

/-- C8 witness: anchor 99 is absent from `Gnopath`, selection equals the
anchorless call, and the node-not-found run returns `None`. -/
theorem C8_failure_surfacing_witness :
    (99 : ℕ) ∉ Gnopath.nodeIds ∧
    selectComponent Gnopath (some 99) = selectComponent Gnopath none ∧
    get_a_star_geojson Gonly1 hZero 0 1 = none := by
  have h99 : (99 : ℕ) ∉ Gnopath.nodeIds := by
    simp [Gnopath, MDGraph.nodeIds]
  have hm : ¬((0 : ℕ) ∈ Gonly1.nodeIds ∧ (1 : ℕ) ∈ Gonly1.nodeIds) := by
    simp [Gonly1, MDGraph.nodeIds]
  exact ⟨h99, C8_failure_surfacing.1 Gnopath 99 h99,
    C8_failure_surfacing.2.1 Gonly1 hZero 0 1 hm⟩

/-- C8 counterexample: the no-path failure on `Gnopath` and the internal
`NodeNotFound` error on `Gonly1` both surface as the same bare `None` — the
caller cannot distinguish them — and the absent-anchor fallback returns the
very same value as the anchorless call, with no non-fatal notice anywhere in
the result. -/
theorem C8_counterexample :
    get_a_star_geojson Gnopath hZero 0 1 = none ∧
    get_a_star_geojson Gonly1 hZero 0 1 = none ∧
    get_a_star_geojson Gnopath hZero 0 1 =
      get_a_star_geojson Gonly1 hZero 0 1 ∧
    selectComponent Gnopath (some 99) = selectComponent Gnopath none := by
  have h1 : get_a_star_geojson Gnopath hZero 0 1 = none := by
    norm_num [get_a_star_geojson, astar, astarFuel, Gnopath, astarLoop,
      popMinBy, entryKey, succWeights, weightOpt, parallelAttrs, listMinQ,
      hZero, MDGraph.nodeIds]
  have h2 : get_a_star_geojson Gonly1 hZero 0 1 = none := by
    norm_num [get_a_star_geojson, Gonly1, MDGraph.nodeIds]
  refine ⟨h1, h2, by rw [h1, h2], ?_⟩
  have h99 : (99 : ℕ) ∉ Gnopath.nodeIds := by
    simp [Gnopath, MDGraph.nodeIds]
  simp [selectComponent, h99]

/-- Flood checks of the individual coordinates appearing in the `Gpipe`
pipeline run under `gridTL`. -/
theorem floodGpipeA : is_node_flooded (3/4) (3/4) gridTL 1 0 1 0 = false := by
  unfold is_node_flooded
  rw [show latlon_to_grid_coords (3/4) (3/4) 1 0 1 0 gridTL.rows gridTL.cols =
      some (0, 1) from by
    norm_num [latlon_to_grid_coords, ratTrunc, rowFrac, colFrac, gridTL]]
  norm_num [gridTL]

theorem floodGpipeB : is_node_flooded (1/4) (3/4) gridTL 1 0 1 0 = false := by
  unfold is_node_flooded
  rw [show latlon_to_grid_coords (1/4) (3/4) 1 0 1 0 gridTL.rows gridTL.cols =
      some (1, 1) from by
    norm_num [latlon_to_grid_coords, ratTrunc, rowFrac, colFrac, gridTL]]
  norm_num [gridTL]

theorem floodGpipeC : is_node_flooded (3/4) (1/4) gridTL 1 0 1 0 = true := by
  unfold is_node_flooded
  rw [show latlon_to_grid_coords (3/4) (1/4) 1 0 1 0 gridTL.rows gridTL.cols =
      some (0, 0) from by
    norm_num [latlon_to_grid_coords, ratTrunc, rowFrac, colFrac, gridTL]]
  norm_num [gridTL]

theorem floodGpipeD : is_node_flooded (1/2) (3/4) gridTL 1 0 1 0 = false := by
  unfold is_node_flooded
  rw [show latlon_to_grid_coords (1/2) (3/4) 1 0 1 0 gridTL.rows gridTL.cols =
      some (1, 1) from by
    norm_num [latlon_to_grid_coords, ratTrunc, rowFrac, colFrac, gridTL]]
  norm_num [gridTL]

/-- The all-clear grid never reports a flooded point. -/
theorem floodZero (lat lon : ℚ) :
    is_node_flooded lat lon gridZero 1 0 1 0 = false := by
  unfold is_node_flooded
  cases hll : latlon_to_grid_coords lat lon 1 0 1 0 gridZero.rows
      gridZero.cols with
  | none => rfl
  | some rc =>
    obtain ⟨r, c⟩ := rc
    simp [gridZero]

/-- C9 (amended): every successful serialization carries the path nodes'
coordinates in traversal order, the total distance in meters rounded to two
decimals, the kilometers value likewise rounded, and the node count; the
status tag is the constant `"dry"`, regardless of whether the route was
computed on a hazard-reduced network. -/
theorem C9_serialization (G : MDGraph) (h : ℕ → ℚ) (s t : ℕ) (out : RouteOut)
    (hout : get_a_star_geojson G h s t = some out) :
    ∃ p c d, astar G h s t = some (p, c) ∧
      totalDist G p = some d ∧
      lineCoords G p = some out.coordinates ∧
      out.distance_meters = round2 d ∧
      out.distance_km = round2 (d / 1000) ∧
      out.num_nodes = p.length ∧
      out.status = "dry" := by
  rw [get_a_star_geojson] at hout
  split at hout
  · cases hrun : astar G h s t with
    | none =>
      rw [hrun] at hout
      exact Option.noConfusion hout
    | some pc =>
      obtain ⟨p, c0⟩ := pc
      rw [hrun] at hout
      simp only at hout
      cases htd : totalDist G p with
      | none =>
        rw [htd] at hout
        exact Option.noConfusion hout
      | some d =>
        rw [htd] at hout
        cases hlc : lineCoords G p with
        | none =>
          rw [hlc] at hout
          exact Option.noConfusion hout
        | some cs =>
          rw [hlc] at hout
          simp only at hout
          injection hout with h1
          refine ⟨p, c0, d, rfl, htd, ?_, ?_, ?_, ?_, ?_⟩
          · rw [hlc, ← h1]
          · rw [← h1]
          · rw [← h1]
          · rw [← h1]
          · rw [← h1]
  · exact Option.noConfusion hout

/-- C9 witness: the serialization on `Gpar` carries the coordinates, rounded
distances, node count and the constant status. -/
theorem C9_serialization_witness :
    get_a_star_geojson Gpar hZero 0 1 = some outPar ∧
    ∃ p c d, astar Gpar hZero 0 1 = some (p, c) ∧
      totalDist Gpar p = some d ∧
      lineCoords Gpar p = some outPar.coordinates ∧
      outPar.distance_meters = round2 d ∧
      outPar.distance_km = round2 (d / 1000) ∧
      outPar.num_nodes = p.length ∧
      outPar.status = "dry" := by
  have hout : get_a_star_geojson Gpar hZero 0 1 = some outPar := by
    norm_num [get_a_star_geojson, astar, astarFuel, Gpar, astarLoop, popMinBy,
      entryKey, succWeights, weightOpt, parallelAttrs, listMinQ, hZero,
      MDGraph.nodeIds, totalDist, hopDist, lineCoords, nodeCoordOpt,
      round2, roundHalfEven, Int.fract, outPar, List.find?,
      List.dedup_cons_of_mem, List.dedup_cons_of_not_mem]
  exact ⟨hout, C9_serialization Gpar hZero 0 1 outPar hout⟩

set_option maxHeartbeats 1000000 in
/-- C9 counterexample: running the full pipeline on `Gpipe` under the hazard
grid `gridTL` removes node 2 (the network is hazard-reduced), yet the
serialized route still carries status `"dry"` — the very same tag as the
all-clear run under `gridZero`, so no distinguishing status tag exists. -/
theorem C9_counterexample :
    (2 : ℕ) ∈ Gpipe.nodeIds ∧
    (2 : ℕ) ∉ (get_reachable_roads Gpipe gridTL 1 0 1 0 (some 0) 3).nodeIds ∧
    get_a_star_geojson (get_reachable_roads Gpipe gridTL 1 0 1 0 (some 0) 3)
      hZero 0 1 = some outPipe ∧
    get_a_star_geojson (get_reachable_roads Gpipe gridZero 1 0 1 0 (some 0) 3)
      hZero 0 1 = some outPipe ∧
    outPipe.status = "dry" := by
  have hA : removeFloodedNodes Gpipe gridTL 1 0 1 0 = Gsel := by
    norm_num [removeFloodedNodes, floodedNodeIds, Gpipe, Gsel,
      floodGpipeA, floodGpipeB, floodGpipeC]
  have hB : removeFloodedEdges Gsel gridTL 1 0 1 0 3 = Gsel := by
    norm_num [removeFloodedEdges, is_edge_flooded, linspace, straightGeom,
      edgeGeomOf, nodeDatum, Gsel, List.find?, List.range_succ,
      floodGpipeA, floodGpipeB, floodGpipeD]
  have hsel : selectComponent Gsel (some 0) = Gsel := by
    norm_num [selectComponent, Gsel, MDGraph.nodeIds, reachList, nbrStep,
      adjU, subgraphOn, Function.iterate_succ, Function.iterate_zero,
      Function.comp]
  have hroadsTL : get_reachable_roads Gpipe gridTL 1 0 1 0 (some 0) 3 = Gsel := by
    rw [get_reachable_roads, prunedGraph, hA, hB, hsel]
  have hA0 : removeFloodedNodes Gpipe gridZero 1 0 1 0 = Gpipe := by
    norm_num [removeFloodedNodes, floodedNodeIds, Gpipe, floodZero]
  have hB0 : removeFloodedEdges Gpipe gridZero 1 0 1 0 3 = Gpipe := by
    norm_num [removeFloodedEdges, is_edge_flooded, linspace, straightGeom,
      edgeGeomOf, nodeDatum, Gpipe, List.find?, List.range_succ, floodZero]
  have hsel0 : selectComponent Gpipe (some 0) = Gpipe := by
    norm_num [selectComponent, Gpipe, MDGraph.nodeIds, reachList, nbrStep,
      adjU, subgraphOn, Function.iterate_succ, Function.iterate_zero,
      Function.comp]
  have hroads0 : get_reachable_roads Gpipe gridZero 1 0 1 0 (some 0) 3 = Gpipe := by
    rw [get_reachable_roads, prunedGraph, hA0, hB0, hsel0]
  have hrunTL : get_a_star_geojson Gsel hZero 0 1 = some outPipe := by
    norm_num [get_a_star_geojson, astar, astarFuel, Gsel, astarLoop, popMinBy,
      entryKey, succWeights, weightOpt, parallelAttrs, listMinQ, hZero,
      MDGraph.nodeIds, totalDist, hopDist, lineCoords, nodeCoordOpt, round2,
      roundHalfEven, Int.fract, outPipe, List.find?,
      List.dedup_cons_of_mem, List.dedup_cons_of_not_mem]
  have hrun0 : get_a_star_geojson Gpipe hZero 0 1 = some outPipe := by
    norm_num [get_a_star_geojson, astar, astarFuel, Gpipe, astarLoop, popMinBy,
      entryKey, succWeights, weightOpt, parallelAttrs, listMinQ, hZero,
      MDGraph.nodeIds, totalDist, hopDist, lineCoords, nodeCoordOpt, round2,
      roundHalfEven, Int.fract, outPipe, List.find?,
      List.dedup_cons_of_mem, List.dedup_cons_of_not_mem]
  refine ⟨by simp [Gpipe, MDGraph.nodeIds], ?_, ?_, ?_, rfl⟩
  · rw [hroadsTL]
    simp [Gsel, MDGraph.nodeIds]
  · rw [hroadsTL]
    exact hrunTL
  · rw [hroads0]
    exact hrun0

end RadarNet
